import Mathlib

/-!
# Robin-Hood hash map with an insertion-ordered entry list

A shallow embedding of `src/hash_map.h` (class `HashMap<KeyType, ValueType, Hash>`) and
a proof that the public operations keep its two stores consistent.

## The model

* The entry store `std::list<CellType> elements` is a list of nodes; every node carries
  the address under which the probe index refers to it (a `std::list` iterator is the
  address of its node and stays valid until that very node is erased). `push_back`
  allocates a node at an address that no live node has; the address of an erased node
  may be handed out again, so the iterator left behind in an emptied slot may dangle or
  alias a later node.
* The probe index `std::vector<node> buckets` is a list of `node`s: `iter` is a node
  address (`0` for a default-constructed iterator), `waiting` is the probe distance,
  `-1` for an empty slot.
* Every operation returns an `Option`: `none` stands for undefined behaviour of the C++
  code (reading a slot out of bounds, dereferencing an iterator that designates no live
  node, a remainder by zero) or for a loop that does not come to an end within the stated
  number of iterations. The theorems show that neither happens in a reachable state.
* `size_t` and `int` values are natural numbers and integers without wrap-around: every
  counter of the code stays below the capacity, which is at most `5 * size + 20`.

## The proof

`MapInv` is the representation invariant: node addresses and keys are pairwise distinct,
the occupied slots hold exactly the addresses of the live nodes, each once, every stored
distance is the cyclic distance of the slot from the home slot of its key, and the
Robin-Hood ordering holds in the local form `RH`. The walks of `insert_` and `erase_`
keep it (`insert_loop_spec`, `erase_shift_spec`), `receive_pos_` is exact under it
(`receive_pos__spec`), and every reachable state has it with `size < capacity`
(`Reachable.wf`). `erase_shift_exact` follows the backward shift slot by slot, and
`check_and_rehash_some` reads the two branches of the rehash check off its result.
-/

namespace RobinHood

/-- The struct `node` of the source: one slot of the probe index. -/
structure node where
  iter : Nat
  waiting : Int
deriving DecidableEq, Repr

/-- The data members of `HashMap`: `capasity_`, `elements`, `buckets`. The member `hash_`
is passed to the operations as a parameter. -/
structure HashMap (K V : Type) where
  capasity_ : Nat
  elements : List (Nat × (K × V))
  buckets : List node
deriving DecidableEq, Repr

section Defs

variable {K V : Type} [DecidableEq K]

/-- Dereference a list iterator: the pair stored in the live node with this address. -/
def deref : List (Nat × (K × V)) → Nat → Option (K × V)
  | [], _ => none
  | e :: es, it => if e.1 = it then some e.2 else deref es it

/-- The address of the node that `push_back` allocates: one that no live node has. -/
def fresh_addr : List (Nat × (K × V)) → Nat
  | [] => 1
  | e :: es => max (e.1 + 1) (fresh_addr es)

/-- The step `++current_id; if (current_id == capasity_) current_id = 0;`. -/
def next_id (capasity_ current_id : Nat) : Nat :=
  if current_id + 1 = capasity_ then 0 else current_id + 1

/-- The constructor `HashMap(Hash hash = Hash())`. -/
def HashMap.init : HashMap K V :=
  { capasity_ := 20, elements := [], buckets := List.replicate 20 ⟨0, -1⟩ }

/-- The method `size()`. -/
def HashMap.size (s : HashMap K V) : Nat := s.elements.length

/-- The method `empty()`. -/
def HashMap.empty (s : HashMap K V) : Bool := s.elements.length == 0

/-- Iteration from `begin()` to `end()`: the pairs of the entry list in order. -/
def HashMap.toList (s : HashMap K V) : List (K × V) := s.elements.map Prod.snd

/-- The loop of `receive_pos_`; the inner `none` is the result `-1`. -/
def receive_pos_loop (s : HashMap K V) (key : K) :
    Nat → Nat → Int → Option (Option Nat)
  | 0, _, _ => none
  | fuel + 1, current_id, wait =>
    match s.buckets[current_id]? with
    | none => none
    | some b =>
      if b.waiting ≥ wait then
        match deref s.elements b.iter with
        | none => none
        | some e =>
          if key = e.1 then some (some current_id)
          else receive_pos_loop s key fuel (next_id s.capasity_ current_id) (wait + 1)
      else some none

/-- The method `receive_pos_`. The walk goes on while `waiting >= wait` and `wait` grows
by one each round, so it is over after `capasity_ + 1` rounds when the stored distances
are below the capacity. -/
def receive_pos_ (hash_ : K → Nat) (s : HashMap K V) (key : K) : Option (Option Nat) :=
  if s.capasity_ = 0 then none
  else receive_pos_loop s key (s.capasity_ + 1) (hash_ key % s.capasity_) 0

/-- The method `find`: the inner `none` is `end()`, `some a` the iterator at node `a`. -/
def find (hash_ : K → Nat) (s : HashMap K V) (query : K) : Option (Option Nat) :=
  match receive_pos_ hash_ s query with
  | none => none
  | some none => some none
  | some (some pos_) =>
    match s.buckets[pos_]? with
    | none => none
    | some b => some (some b.iter)

/-- The loop of `insert_` with the final store into the empty slot. A round never
empties or fills a slot, so a walk that met no empty slot in `capasity_` rounds never
meets one. -/
def insert_loop (capasity_ : Nat) :
    Nat → List node → Nat → Int → Nat → Option (List node)
  | 0, _, _, _, _ => none
  | fuel + 1, buckets, current_id, current_waiting, elements_pos =>
    match buckets[current_id]? with
    | none => none
    | some b =>
      if b.waiting ≠ -1 then
        if b.waiting < current_waiting then
          insert_loop capasity_ fuel (buckets.set current_id ⟨elements_pos, current_waiting⟩)
            (next_id capasity_ current_id) (b.waiting + 1) b.iter
        else
          insert_loop capasity_ fuel buckets
            (next_id capasity_ current_id) (current_waiting + 1) elements_pos
      else some (buckets.set current_id ⟨elements_pos, current_waiting⟩)

/-- The method `insert_`. -/
def insert_ (hash_ : K → Nat) (s : HashMap K V) (value : K × V) : Option (HashMap K V) :=
  if s.capasity_ = 0 then none
  else
    let elements_pos := fresh_addr s.elements
    match insert_loop s.capasity_ s.capasity_ s.buckets
        (hash_ value.1 % s.capasity_) 0 elements_pos with
    | none => none
    | some buckets =>
      some { capasity_ := s.capasity_,
             elements := s.elements ++ [(elements_pos, value)],
             buckets := buckets }

/-- The first loop of `erase_`: walk from the home slot to the slot whose entry has the
key. The walk reads every slot once in `capasity_` rounds, so one that has not met the
key by then never does. -/
def erase_find (s : HashMap K V) (key : K) : Nat → Nat → Option Nat
  | 0, _ => none
  | fuel + 1, current_id =>
    match s.buckets[current_id]? with
    | none => none
    | some b =>
      match deref s.elements b.iter with
      | none => none
      | some e =>
        if e.1 ≠ key then erase_find s key fuel (next_id s.capasity_ current_id)
        else some current_id

/-- The second loop of `erase_`: the backward shift. It ends at the first slot after the
freed one whose `waiting` is not positive; with an empty slot besides the freed one that
is within `capasity_` rounds. -/
def erase_shift (capasity_ : Nat) : Nat → List node → Nat → Nat → Option (List node)
  | 0, _, _, _ => none
  | fuel + 1, buckets, current_id, next =>
    match buckets[next]? with
    | none => none
    | some bn =>
      if bn.waiting > 0 then
        match buckets[current_id]? with
        | none => none
        | some bc =>
          erase_shift capasity_ fuel
            (((buckets.set current_id bn).set next bc).set current_id
              ⟨bn.iter, bn.waiting - 1⟩)
            next (next_id capasity_ next)
      else some buckets

/-- The method `erase_`. -/
def erase_ (hash_ : K → Nat) (s : HashMap K V) (key : K) : Option (HashMap K V) :=
  if s.capasity_ = 0 then none
  else
    match erase_find s key s.capasity_ (hash_ key % s.capasity_) with
    | none => none
    | some current_id =>
      match s.buckets[current_id]? with
      | none => none
      | some b =>
        match erase_shift s.capasity_ s.capasity_
            (s.buckets.set current_id ⟨b.iter, -1⟩)
            current_id (next_id s.capasity_ current_id) with
        | none => none
        | some buckets =>
          some { capasity_ := s.capasity_,
                 elements := s.elements.filter (fun e => e.1 ≠ b.iter),
                 buckets := buckets }

/-- The loop `for (auto& element : old_elements) insert_(element);`. -/
def insert_all (hash_ : K → Nat) : List (K × V) → HashMap K V → Option (HashMap K V)
  | [], s => some s
  | element :: rest, s =>
    match insert_ hash_ s element with
    | none => none
    | some s' => insert_all hash_ rest s'

/-- The method `check_and_rehash`. The source computes
`double load_factor = elements.size() / capasity_`, the quotient of two `size_t`, and
returns when `load_factor < 0.5`; for a natural number `q` that is `2 * q < 1`. -/
def check_and_rehash (hash_ : K → Nat) (s : HashMap K V) : Option (HashMap K V) :=
  if s.capasity_ = 0 then none
  else
    let load_factor := s.elements.length / s.capasity_
    if 2 * load_factor < 1 then some s
    else
      let capasity_ := 5 * s.elements.length + 20
      let old_elements := s.toList
      insert_all hash_ old_elements
        { capasity_ := capasity_, elements := [], buckets := List.replicate capasity_ ⟨0, -1⟩ }

/-- The method `insert`. -/
def insert (hash_ : K → Nat) (s : HashMap K V) (x : K × V) : Option (HashMap K V) :=
  match receive_pos_ hash_ s x.1 with
  | none => none
  | some none =>
    match insert_ hash_ s x with
    | none => none
    | some s' => check_and_rehash hash_ s'
  | some (some _) => some s

/-- The method `erase`. -/
def erase (hash_ : K → Nat) (s : HashMap K V) (x : K) : Option (HashMap K V) :=
  match receive_pos_ hash_ s x with
  | none => none
  | some none => some s
  | some (some _) => erase_ hash_ s x

/-- The reference `buckets[pos].iter->second`: the address of the node whose value it
designates. -/
def value_ref (s : HashMap K V) (pos : Nat) : Option Nat :=
  match s.buckets[pos]? with
  | none => none
  | some b =>
    match deref s.elements b.iter with
    | none => none
    | some _ => some b.iter

/-- The method `operator[]`: the state afterwards and the node whose value the returned
reference designates. In the branch of a present key the position found before
`check_and_rehash` is used after it, as in the source. -/
def index [Inhabited V] (hash_ : K → Nat) (s : HashMap K V) (query : K) :
    Option (HashMap K V × Nat) :=
  match receive_pos_ hash_ s query with
  | none => none
  | some none =>
    match insert_ hash_ s (query, default) with
    | none => none
    | some s1 =>
      match check_and_rehash hash_ s1 with
      | none => none
      | some s2 =>
        match receive_pos_ hash_ s2 query with
        | none => none
        | some none => none
        | some (some pos) =>
          match value_ref s2 pos with
          | none => none
          | some r => some (s2, r)
  | some (some pos) =>
    match check_and_rehash hash_ s with
    | none => none
    | some s1 =>
      match value_ref s1 pos with
      | none => none
      | some r => some (s1, r)

/-- Assignment through a reference to the value of the node at address `r`. -/
def write_ref (s : HashMap K V) (r : Nat) (v : V) : HashMap K V :=
  { capasity_ := s.capasity_,
    elements := s.elements.map (fun e => if e.1 = r then (e.1, (e.2.1, v)) else e),
    buckets := s.buckets }

/-- The result of `at`: the value, or the exception `std::out_of_range`. -/
inductive AtResult (V : Type) where
  | out_of_range : AtResult V
  | value : V → AtResult V
deriving DecidableEq, Repr

/-- The method `at`. -/
def at_ (hash_ : K → Nat) (s : HashMap K V) (query : K) : Option (AtResult V) :=
  match receive_pos_ hash_ s query with
  | none => none
  | some none => some AtResult.out_of_range
  | some (some pos) =>
    match s.buckets[pos]? with
    | none => none
    | some b =>
      match deref s.elements b.iter with
      | none => none
      | some e => some (AtResult.value e.2)

/-- The method `clear`. -/
def clear (_s : HashMap K V) : HashMap K V :=
  { capasity_ := 20, elements := [], buckets := List.replicate 20 ⟨0, -1⟩ }

/-- The addresses held by the occupied slots of a probe index, in slot order. -/
def occ (B : List node) : List Nat :=
  (B.filter (fun b => decide (b.waiting ≠ -1))).map node.iter

/-- The node at address `a` is live, and `w` is the cyclic distance from the home slot of
its key to slot `p`. -/
def SlotOK (hash_ : K → Nat) (c : Nat) (E : List (Nat × (K × V))) (p a : Nat) (w : Int) :
    Prop :=
  ∃ e, deref E a = some e ∧ 0 ≤ w ∧ w < c ∧
    (((hash_ e.1 % c : Nat) : Int) + w = p ∨ ((hash_ e.1 % c : Nat) : Int) + w = p + c)

/-- Slot-wise consistency of a probe index of capacity `c` with the entry list `E`. -/
structure Slots (hash_ : K → Nat) (c : Nat) (E : List (Nat × (K × V))) (B : List node) :
    Prop where
  len : B.length = c
  ge : ∀ (p : Nat) (b : node), B[p]? = some b → -1 ≤ b.waiting
  dist : ∀ (p : Nat) (b : node), B[p]? = some b → b.waiting ≠ -1 →
    SlotOK hash_ c E p b.iter b.waiting

/-- Robin-Hood ordering in local form: a stored distance exceeds the one of the slot
before it by at most one (an empty slot counting as `-1`). -/
def RH (c : Nat) (B : List node) : Prop :=
  ∀ (p : Nat) (b b' : node), B[p]? = some b → B[next_id c p]? = some b' →
    b'.waiting ≤ b.waiting + 1

/-- The representation invariant of the container. -/
structure MapInv (hash_ : K → Nat) (s : HashMap K V) : Prop where
  cap_pos : 0 < s.capasity_
  addrs : (s.elements.map Prod.fst).Nodup
  keys : (s.toList.map Prod.fst).Nodup
  slots : Slots hash_ s.capasity_ s.elements s.buckets
  rh : RH s.capasity_ s.buckets
  perm : (occ s.buckets).Perm (s.elements.map Prod.fst)

/-- The invariant of the states between two public operations: `MapInv` with room left. -/
structure WF (hash_ : K → Nat) (s : HashMap K V) : Prop where
  inv : MapInv hash_ s
  cap_ge : 20 ≤ s.capasity_
  size_lt : s.elements.length < s.capasity_

variable [Inhabited V]

/-- The public operations that change a map; `assign k v` is the statement `m[k] = v`,
`rehash` a call of the public method `check_and_rehash`. -/
inductive Op (K V : Type) where
  | insert : K × V → Op K V
  | erase : K → Op K V
  | index : K → Op K V
  | assign : K → V → Op K V
  | rehash : Op K V
  | clear : Op K V

/-- One public operation applied to a state. -/
def step (hash_ : K → Nat) (s : HashMap K V) : Op K V → Option (HashMap K V)
  | Op.insert x => insert hash_ s x
  | Op.erase k => erase hash_ s k
  | Op.index k =>
    match index hash_ s k with
    | none => none
    | some (s', _) => some s'
  | Op.assign k v =>
    match index hash_ s k with
    | none => none
    | some (s', r) => some (write_ref s' r v)
  | Op.rehash => check_and_rehash hash_ s
  | Op.clear => some (clear s)

/-- A sequence of public operations applied to a state, first operation first. -/
def run (hash_ : K → Nat) : List (Op K V) → HashMap K V → Option (HashMap K V)
  | [], s => some s
  | op :: ops, s =>
    match step hash_ s op with
    | none => none
    | some s' => run hash_ ops s'

/-- A state is reachable when a sequence of public operations leads to it from a freshly
constructed map. -/
def Reachable (hash_ : K → Nat) (s : HashMap K V) : Prop :=
  ∃ ops : List (Op K V), run hash_ ops HashMap.init = some s

/-- The two operations of the association-list reading of the map. -/
inductive MapOp (K V : Type) where
  | insert : K × V → MapOp K V
  | erase : K → MapOp K V

/-- The public operation that a `MapOp` stands for. -/
def MapOp.toOp : MapOp K V → Op K V
  | MapOp.insert x => Op.insert x
  | MapOp.erase k => Op.erase k

/-- Insert on a plain list of pairs: append the pair if its key is absent, otherwise
nothing. -/
def assoc_insert (l : List (K × V)) (x : K × V) : List (K × V) :=
  if x.1 ∈ l.map Prod.fst then l else l ++ [x]

/-- Erase on a plain list of pairs: delete the pair with that key. -/
def assoc_erase (l : List (K × V)) (k : K) : List (K × V) :=
  l.eraseP (fun kv => decide (kv.1 = k))

/-- A sequence of operations on a plain list of pairs, first operation first. -/
def assoc_run : List (MapOp K V) → List (K × V) → List (K × V)
  | [], l => l
  | MapOp.insert x :: ops, l => assoc_run ops (assoc_insert l x)
  | MapOp.erase k :: ops, l => assoc_run ops (assoc_erase l k)

/-- The identity on the natural numbers as the hash function of the examples. -/
def id_hash : Nat → Nat := fun n => n

/-- A short sequence of operations with a probe collision, an assignment and a backward
shift. -/
def demo_ops : List (Op Nat Nat) :=
  [Op.insert (1, 10), Op.insert (21, 5), Op.insert (2, 7), Op.assign 1 11, Op.erase 21]

/-- The state that `demo_ops` leads to from a fresh map under `id_hash`. -/
def demo_state : HashMap Nat Nat :=
  { capasity_ := 20,
    elements := [(1, (1, 11)), (3, (2, 7))],
    buckets := [⟨0, -1⟩, ⟨1, 0⟩, ⟨3, 0⟩, ⟨2, -1⟩] ++ List.replicate 16 ⟨0, -1⟩ }

/-- Eleven inserts of the keys 0, ..., 10. -/
def eleven_ops : List (Op Nat Nat) :=
  (List.range 11).map (fun i => Op.insert (i, i))

/-- The state that `eleven_ops` leads to from a fresh map under `id_hash`. -/
def eleven_state : HashMap Nat Nat :=
  { capasity_ := 20,
    elements := (List.range 11).map (fun i => (i + 1, (i, i))),
    buckets := (List.range 11).map (fun i => ⟨i + 1, 0⟩) ++ List.replicate 9 ⟨0, -1⟩ }

/-- Nineteen inserts of the keys 0, ..., 18. -/
def nineteen_ops : List (Op Nat Nat) :=
  (List.range 19).map (fun i => Op.insert (i, i))

/-- The state that `nineteen_ops` leads to from a fresh map under `id_hash`: one slot is
left. -/
def nineteen_state : HashMap Nat Nat :=
  { capasity_ := 20,
    elements := (List.range 19).map (fun i => (i + 1, (i, i))),
    buckets := (List.range 19).map (fun i => ⟨i + 1, 0⟩) ++ [⟨0, -1⟩] }

/-- The table right after `insert_` of the key 19 into `nineteen_state`, before the
rehash: every slot is occupied. -/
def full_table : HashMap Nat Nat :=
  { capasity_ := 20,
    elements := (List.range 20).map (fun i => (i + 1, (i, i))),
    buckets := (List.range 20).map (fun i => ⟨i + 1, 0⟩) }

/-- Three inserts under `id_hash`: the keys 0 and 20 share the home slot 0, the key 2
sits at its own home slot right behind them. -/
def cluster_ops : List (Op Nat Nat) :=
  [Op.insert (0, 0), Op.insert (20, 1), Op.insert (2, 2)]

/-- The state that `cluster_ops` leads to from a fresh map under `id_hash`. -/
def cluster_state : HashMap Nat Nat :=
  { capasity_ := 20,
    elements := [(1, (0, 0)), (2, (20, 1)), (3, (2, 2))],
    buckets := [⟨1, 0⟩, ⟨2, 1⟩, ⟨3, 0⟩] ++ List.replicate 17 ⟨0, -1⟩ }

/-- Three inserts under `id_hash` of keys that share the home slot 19, the last slot. -/
def wrap_ops : List (Op Nat Nat) :=
  [Op.insert (19, 0), Op.insert (39, 1), Op.insert (59, 2)]

/-- The state that `wrap_ops` leads to from a fresh map under `id_hash`: a cluster of
three entries that wraps around the end of the probe index. -/
def wrap_state : HashMap Nat Nat :=
  { capasity_ := 20,
    elements := [(1, (19, 0)), (2, (39, 1)), (3, (59, 2))],
    buckets := [⟨2, 1⟩, ⟨3, 2⟩] ++ List.replicate 17 ⟨0, -1⟩ ++ [⟨1, 0⟩] }

end Defs

/-! ## Lemmas on the probe index and the invariant -/

section Lemmas

variable {K V : Type}

/-! ### Slots, occupied addresses and the step to the next slot -/

theorem next_id_lt {c p : Nat} (hp : p < c) : next_id c p < c := by
  unfold next_id; split <;> omega

theorem get_set_cases {B : List node} {i p : Nat} {x y : node}
    (h : (B.set i x)[p]? = some y) :
    (p = i ∧ y = x) ∨ (p ≠ i ∧ B[p]? = some y) := by
  rw [List.getElem?_set] at h
  by_cases hip : i = p
  · rw [if_pos hip] at h
    split at h
    · left; exact ⟨hip.symm, (Option.some.inj h).symm⟩
    · cases h
  · rw [if_neg hip] at h
    right; exact ⟨fun e => hip e.symm, h⟩

theorem get_lt {B : List node} {p : Nat} {b : node} (h : B[p]? = some b) : p < B.length := by
  rcases List.getElem?_eq_some_iff.mp h with ⟨hlt, _⟩
  exact hlt

theorem get_of_lt {B : List node} {p : Nat} (h : p < B.length) : ∃ b, B[p]? = some b :=
  ⟨B[p], List.getElem?_eq_getElem h⟩

theorem occ_append (l1 l2 : List node) : occ (l1 ++ l2) = occ l1 ++ occ l2 := by
  simp [occ, List.filter_append]

theorem occ_cons (b : node) (l : List node) : occ (b :: l) = occ [b] ++ occ l := by
  have := occ_append [b] l
  simpa using this

theorem occ_single_full {b : node} (h : b.waiting ≠ -1) : occ [b] = [b.iter] := by
  simp [occ, h]

theorem occ_single_empty {b : node} (h : b.waiting = -1) : occ [b] = [] := by
  simp [occ, h]

theorem occ_set {B : List node} {i : Nat} {b : node} (x : node) (h : B[i]? = some b) :
    (occ [b] ++ occ (B.set i x)).Perm (occ [x] ++ occ B) := by
  rcases List.getElem?_eq_some_iff.mp h with ⟨hlt, hb⟩
  have h1 : B.set i x = B.take i ++ x :: B.drop (i + 1) := by
    rw [List.set_eq_take_append_cons_drop, if_pos hlt]
  have h2 : B = B.take i ++ b :: B.drop (i + 1) := by
    rw [← hb, List.getElem_cons_drop, List.take_append_drop]
  rw [h1]
  conv => rhs; rw [h2]
  rw [occ_append, occ_append, occ_cons x (B.drop (i + 1)), occ_cons b (B.drop (i + 1))]
  rw [List.perm_iff_count]
  intro a
  simp only [List.count_append]
  omega

theorem occ_set_full_full {B : List node} {i : Nat} {b : node} (x : node)
    (h : B[i]? = some b) (hb : b.waiting ≠ -1) (hx : x.waiting ≠ -1) :
    (b.iter :: occ (B.set i x)).Perm (x.iter :: occ B) := by
  have := occ_set x h
  rw [occ_single_full hb, occ_single_full hx] at this
  simpa using this

theorem occ_set_empty_full {B : List node} {i : Nat} {b : node} (x : node)
    (h : B[i]? = some b) (hb : b.waiting = -1) (hx : x.waiting ≠ -1) :
    (occ (B.set i x)).Perm (x.iter :: occ B) := by
  have := occ_set x h
  rw [occ_single_empty hb, occ_single_full hx] at this
  simpa using this

theorem occ_set_full_empty {B : List node} {i : Nat} {b : node} (x : node)
    (h : B[i]? = some b) (hb : b.waiting ≠ -1) (hx : x.waiting = -1) :
    (b.iter :: occ (B.set i x)).Perm (occ B) := by
  have := occ_set x h
  rw [occ_single_full hb, occ_single_empty hx] at this
  simpa using this

theorem occ_set_empty_empty {B : List node} {i : Nat} {b : node} (x : node)
    (h : B[i]? = some b) (hb : b.waiting = -1) (hx : x.waiting = -1) :
    (occ (B.set i x)).Perm (occ B) := by
  have := occ_set x h
  rw [occ_single_empty hb, occ_single_empty hx] at this
  simpa using this

theorem occ_mem {B : List node} {p : Nat} {b : node} (h : B[p]? = some b)
    (hb : b.waiting ≠ -1) : b.iter ∈ occ B := by
  unfold occ
  rw [List.mem_map]
  refine ⟨b, ?_, rfl⟩
  rw [List.mem_filter]
  exact ⟨List.mem_iff_getElem?.mpr ⟨p, h⟩, by simpa using hb⟩

theorem occ_mem_inv {B : List node} {a : Nat} (h : a ∈ occ B) :
    ∃ (p : Nat) (b : node), B[p]? = some b ∧ b.waiting ≠ -1 ∧ b.iter = a := by
  unfold occ at h
  rw [List.mem_map] at h
  rcases h with ⟨b, hb, rfl⟩
  rw [List.mem_filter] at hb
  rcases List.mem_iff_getElem?.mp hb.1 with ⟨p, hp⟩
  exact ⟨p, b, hp, by simpa using hb.2, rfl⟩

theorem occ_replicate (n : Nat) (a : Nat) : occ (List.replicate n ⟨a, -1⟩) = [] := by
  induction n with
  | zero => rfl
  | succ n ih => rw [List.replicate_succ, occ_cons, ih, occ_single_empty rfl]; rfl

theorem occ_length_le (B : List node) : (occ B).length ≤ B.length := by
  unfold occ
  rw [List.length_map]
  exact List.length_filter_le _ _

/-- A probe index with fewer occupied slots than slots has an empty slot. -/
theorem exists_empty {B : List node} (h : (occ B).length < B.length) :
    ∃ (p : Nat) (b : node), B[p]? = some b ∧ b.waiting = -1 := by
  unfold occ at h
  rw [List.length_map, List.length_filter_lt_length_iff_exists] at h
  rcases h with ⟨b, hb, hw⟩
  rcases List.mem_iff_getElem?.mp hb with ⟨p, hp⟩
  exact ⟨p, b, hp, by simpa using hw⟩

theorem next_id_inj {c p q : Nat} (_hp : p < c) (_hq : q < c)
    (h : next_id c p = next_id c q) : p = q := by
  unfold next_id at h
  split at h <;> split at h <;> omega

theorem Slots.set {hash_ : K → Nat} {c : Nat} {E : List (Nat × (K × V))} {B : List node}
    (hS : Slots hash_ c E B) (i : Nat) (x : node) (hge : -1 ≤ x.waiting)
    (hok : x.waiting ≠ -1 → SlotOK hash_ c E i x.iter x.waiting) :
    Slots hash_ c E (B.set i x) := by
  refine ⟨by rw [List.length_set]; exact hS.len, ?_, ?_⟩
  · intro p b h
    rcases get_set_cases h with ⟨_, rfl⟩ | ⟨_, h'⟩
    · exact hge
    · exact hS.ge p b h'
  · intro p b h hw
    rcases get_set_cases h with ⟨rfl, rfl⟩ | ⟨_, h'⟩
    · exact hok hw
    · exact hS.dist p b h' hw

theorem RH_set {c : Nat} {B : List node} (hR : RH c B) (i : Nat) (x : node)
    (hprev : ∀ (q : Nat) (b : node), B[q]? = some b → next_id c q = i → q ≠ i →
      x.waiting ≤ b.waiting + 1)
    (hnext : ∀ (b' : node), B[next_id c i]? = some b' → next_id c i ≠ i →
      b'.waiting ≤ x.waiting + 1) :
    RH c (B.set i x) := by
  intro p b b' h1 h2
  rcases get_set_cases h1 with ⟨rfl, rfl⟩ | ⟨hne, h1'⟩
  · rcases get_set_cases h2 with ⟨_, rfl⟩ | ⟨hne2, h2'⟩
    · omega
    · exact hnext b' h2' hne2
  · rcases get_set_cases h2 with ⟨heq, rfl⟩ | ⟨_, h2'⟩
    · exact hprev p b h1' heq hne
    · exact hR p b b' h1' h2'

/-! ### The walk of `insert_` -/

/-- The walk of `insert_` ends at an empty slot and leaves a consistent, Robin-Hood
ordered probe index that holds the carried address in addition. -/
theorem insert_loop_spec (hash_ : K → Nat) (c : Nat) (E : List (Nat × (K × V))) :
    ∀ (fuel : Nat) (B : List node) (cur : Nat) (cw : Int) (ep : Nat),
      Slots hash_ c E B → RH c B → cur < c →
      SlotOK hash_ c E cur ep cw →
      (∀ (q : Nat) (b : node), B[q]? = some b → next_id c q = cur → cw ≤ b.waiting + 1) →
      (∃ (j e : Nat) (b : node), j < fuel ∧ cw + j < c ∧ (cur + j = e ∨ cur + j = e + c) ∧
          B[e]? = some b ∧ b.waiting = -1) →
      ∃ B', insert_loop c fuel B cur cw ep = some B' ∧ Slots hash_ c E B' ∧ RH c B' ∧
        (occ B').Perm (ep :: occ B) := by
  intro fuel
  induction fuel with
  | zero =>
    intro B cur cw ep _ _ _ _ _ hex
    rcases hex with ⟨j, e, b, hj, _⟩
    omega
  | succ fuel ih =>
    intro B cur cw ep hS hR hcur hok hcar hex
    rcases hex with ⟨j, e, be, hj, hcj, hpos, hbe, hwe⟩
    obtain ⟨b, hb⟩ := get_of_lt (hS.len ▸ hcur)
    have hok' := hok
    rcases hok' with ⟨ent, hent, hcw0, hcwc, hhome⟩
    have hbge := hS.ge cur b hb
    have he : e < c := hS.len ▸ get_lt hbe
    have hnlt : next_id c cur < c := next_id_lt hcur
    simp only [insert_loop, hb]
    by_cases hbw : b.waiting = -1
    · -- the empty slot is reached
      rw [if_neg (by simpa using hbw)]
      refine ⟨_, rfl, hS.set cur ⟨ep, cw⟩ (by simp; omega) (fun _ => hok), ?_, ?_⟩
      · apply RH_set hR
        · intro q bq hq hnq _
          exact hcar q bq hq hnq
        · intro b' hb' _
          have := hR cur b b' hb hb'
          simp only
          omega
      · exact occ_set_empty_full ⟨ep, cw⟩ hb hbw (by simp; omega)
    · rw [if_pos (by simpa using hbw)]
      have hj0 : j ≠ 0 := by
        intro hj0
        subst hj0
        have : e = cur := by omega
        subst this
        rw [hb] at hbe
        cases hbe
        exact hbw hwe
      have hecur : e ≠ cur := by omega
      have hpos' : next_id c cur + (j - 1) = e ∨ next_id c cur + (j - 1) = e + c := by
        unfold next_id
        split <;> omega
      rcases hS.dist cur b hb hbw with ⟨entb, hentb, hb0, hbc, hbhome⟩
      have hm1 := Nat.mod_lt (hash_ entb.1) (by omega : 0 < c)
      have hm2 := Nat.mod_lt (hash_ ent.1) (by omega : 0 < c)
      by_cases hlt : b.waiting < cw
      · rw [if_pos hlt]
        have hS1 : Slots hash_ c E (B.set cur ⟨ep, cw⟩) :=
          hS.set cur ⟨ep, cw⟩ (by simp; omega) (fun _ => hok)
        have hR1 : RH c (B.set cur ⟨ep, cw⟩) := by
          apply RH_set hR
          · intro q bq hq hnq _
            exact hcar q bq hq hnq
          · intro b' hb' _
            have := hR cur b b' hb hb'
            simp only
            omega
        have hbe1 : (B.set cur ⟨ep, cw⟩)[e]? = some be := by
          rw [List.getElem?_set_ne (fun h => hecur h.symm)]; exact hbe
        obtain ⟨B', hrun, hS', hR', hperm⟩ :=
          ih (B.set cur ⟨ep, cw⟩) (next_id c cur) (b.waiting + 1) b.iter hS1 hR1 hnlt
            ⟨entb, hentb, by omega, by omega, by
              unfold next_id
              split <;> omega⟩
            (by
              intro q bq hq hnq
              have hqlt : q < c := by
                have := get_lt hq
                rw [List.length_set, hS.len] at this
                exact this
              have hqc : q = cur := next_id_inj hqlt hcur hnq
              subst hqc
              rw [List.getElem?_set_self (hS.len ▸ hcur)] at hq
              cases hq
              simp only
              omega)
            ⟨j - 1, e, be, by omega, by omega, hpos', hbe1, hwe⟩
        refine ⟨B', hrun, hS', hR', hperm.trans ?_⟩
        exact occ_set_full_full ⟨ep, cw⟩ hb hbw (by simp; omega)
      · rw [if_neg hlt]
        obtain ⟨B', hrun, hS', hR', hperm⟩ :=
          ih B (next_id c cur) (cw + 1) ep hS hR hnlt
            ⟨ent, hent, by omega, by omega, by
              unfold next_id
              split <;> omega⟩
            (by
              intro q bq hq hnq
              have hqlt : q < c := hS.len ▸ get_lt hq
              have hqc : q = cur := next_id_inj hqlt hcur hnq
              subst hqc
              rw [hb] at hq
              cases hq
              omega)
            ⟨j - 1, e, be, by omega, by omega, hpos', hbe, hwe⟩
        exact ⟨B', hrun, hS', hR', hperm⟩

/-! ### Dereferencing and the method `insert_` -/

theorem deref_some_mem {E : List (Nat × (K × V))} {a : Nat} {e : K × V}
    (h : deref E a = some e) : (a, e) ∈ E := by
  induction E with
  | nil => cases h
  | cons x xs ih =>
    unfold deref at h
    split at h
    · next heq =>
      cases h
      rw [← heq]
      exact List.mem_cons_self _ _
    · exact List.mem_cons_of_mem _ (ih h)

theorem deref_none {E : List (Nat × (K × V))} {a : Nat} (h : a ∉ E.map Prod.fst) :
    deref E a = none := by
  induction E with
  | nil => rfl
  | cons x xs ih =>
    rw [List.map_cons, List.mem_cons, not_or] at h
    unfold deref
    rw [if_neg (fun e => h.1 e.symm)]
    exact ih h.2

theorem deref_of_mem {E : List (Nat × (K × V))} {a : Nat} {e : K × V}
    (hnd : (E.map Prod.fst).Nodup) (h : (a, e) ∈ E) : deref E a = some e := by
  induction E with
  | nil => cases h
  | cons x xs ih =>
    rw [List.map_cons, List.nodup_cons] at hnd
    unfold deref
    rcases List.mem_cons.mp h with rfl | h'
    · simp
    · have : x.1 ≠ a := by
        intro hx
        apply hnd.1
        rw [hx]
        exact List.mem_map.mpr ⟨(a, e), h', rfl⟩
      rw [if_neg this]
      exact ih hnd.2 h'

theorem deref_append_of_some {E : List (Nat × (K × V))} {a : Nat} {e : K × V}
    (x : Nat × (K × V)) (h : deref E a = some e) : deref (E ++ [x]) a = some e := by
  induction E with
  | nil => cases h
  | cons y ys ih =>
    rw [List.cons_append]
    unfold deref at h ⊢
    split
    · next heq => rw [if_pos heq] at h; exact h
    · next hne => rw [if_neg hne] at h; exact ih h

theorem deref_append_of_none {E : List (Nat × (K × V))} {a : Nat}
    (x : Nat × (K × V)) (h : deref E a = none) :
    deref (E ++ [x]) a = if x.1 = a then some x.2 else none := by
  induction E with
  | nil => rfl
  | cons y ys ih =>
    rw [List.cons_append]
    unfold deref at h ⊢
    split
    · next heq => rw [if_pos heq] at h; cases h
    · next hne => rw [if_neg hne] at h; exact ih h

theorem fresh_addr_gt (E : List (Nat × (K × V))) : ∀ x ∈ E, x.1 < fresh_addr E := by
  induction E with
  | nil => intro x hx; cases hx
  | cons y ys ih =>
    intro x hx
    unfold fresh_addr
    rcases List.mem_cons.mp hx with rfl | h'
    · omega
    · have := ih x h'
      omega

theorem fresh_addr_not_mem (E : List (Nat × (K × V))) : fresh_addr E ∉ E.map Prod.fst := by
  intro h
  rcases List.mem_map.mp h with ⟨x, hx, heq⟩
  have := fresh_addr_gt E x hx
  omega

theorem SlotOK.append {hash_ : K → Nat} {c : Nat} {E : List (Nat × (K × V))} {p a : Nat}
    {w : Int} (x : Nat × (K × V)) (h : SlotOK hash_ c E p a w) :
    SlotOK hash_ c (E ++ [x]) p a w := by
  rcases h with ⟨e, he, h0, hc, hh⟩
  exact ⟨e, deref_append_of_some x he, h0, hc, hh⟩

theorem MapInv.occ_length {hash_ : K → Nat} {s : HashMap K V} (h : MapInv hash_ s) :
    (occ s.buckets).length = s.elements.length := by
  rw [h.perm.length_eq, List.length_map]

theorem MapInv.size_le {hash_ : K → Nat} {s : HashMap K V} (h : MapInv hash_ s) :
    s.elements.length ≤ s.capasity_ := by
  rw [← h.occ_length, ← h.slots.len]
  exact occ_length_le _

/-- The method `insert_` on a table with room left and a key not yet present keeps the
invariant and appends the pair to the entry list. -/
theorem insert__spec {hash_ : K → Nat} {s : HashMap K V} (hI : MapInv hash_ s)
    (hsz : s.elements.length < s.capasity_) (value : K × V)
    (hk : value.1 ∉ s.toList.map Prod.fst) :
    ∃ s', insert_ hash_ s value = some s' ∧ MapInv hash_ s' ∧ s'.capasity_ = s.capasity_ ∧
      s'.elements = s.elements ++ [(fresh_addr s.elements, value)] := by
  have hc := hI.cap_pos
  have hS : Slots hash_ s.capasity_ (s.elements ++ [(fresh_addr s.elements, value)])
      s.buckets :=
    ⟨hI.slots.len, hI.slots.ge, fun p b hb hw => (hI.slots.dist p b hb hw).append _⟩
  have hhome := Nat.mod_lt (hash_ value.1) hc
  have hfresh := fresh_addr_not_mem s.elements
  have hex : ∃ (p : Nat) (b : node), s.buckets[p]? = some b ∧ b.waiting = -1 := by
    apply exists_empty
    rw [hI.occ_length, hI.slots.len]
    exact hsz
  rcases hex with ⟨p, be, hbe, hwe⟩
  have hp : p < s.capasity_ := hI.slots.len ▸ get_lt hbe
  obtain ⟨B', hrun, hS', hR', hperm⟩ :=
    insert_loop_spec hash_ s.capasity_ (s.elements ++ [(fresh_addr s.elements, value)])
      s.capasity_ s.buckets (hash_ value.1 % s.capasity_) 0 (fresh_addr s.elements)
      hS hI.rh hhome
      ⟨value, by
          rw [deref_append_of_none _ (deref_none hfresh)]
          simp, le_refl _, by omega, by left; simp⟩
      (by
        intro q b hq _
        have := hI.slots.ge q b hq
        omega)
      (by
        by_cases hle : hash_ value.1 % s.capasity_ ≤ p
        · exact ⟨p - hash_ value.1 % s.capasity_, p, be, by omega, by omega, by omega,
            hbe, hwe⟩
        · exact ⟨p + s.capasity_ - hash_ value.1 % s.capasity_, p, be, by omega, by omega,
            by omega, hbe, hwe⟩)
  refine ⟨{ capasity_ := s.capasity_,
             elements := s.elements ++ [(fresh_addr s.elements, value)],
             buckets := B' }, ?_, ?_, rfl, rfl⟩
  · unfold insert_
    rw [if_neg (by omega)]
    simp only [hrun]
  · refine ⟨hc, ?_, ?_, hS', hR', ?_⟩
    · simp only [List.map_append, List.map_cons, List.map_nil]
      rw [List.nodup_append]
      refine ⟨hI.addrs, List.nodup_singleton _, ?_⟩
      intro a ha hb
      rw [List.mem_singleton] at hb
      subst hb
      exact hfresh ha
    · simp only [HashMap.toList, List.map_append, List.map_cons, List.map_nil]
      rw [List.nodup_append]
      refine ⟨hI.keys, List.nodup_singleton _, ?_⟩
      intro a ha hb
      rw [List.mem_singleton] at hb
      subst hb
      exact hk ha
    · simp only [List.map_append, List.map_cons, List.map_nil]
      exact (hperm.trans (List.Perm.cons _ hI.perm)).trans
        (List.perm_append_singleton _ _).symm

/-! ### The method `receive_pos_` -/

/-- Robin-Hood ordering in global form: the `i`-th slot before a slot of stored distance
`d` holds a stored distance of at least `d - i`. -/
theorem rh_back {hash_ : K → Nat} {c : Nat} {E : List (Nat × (K × V))} {B : List node}
    (hS : Slots hash_ c E B) (hR : RH c B) {p : Nat} {b : node} (hb : B[p]? = some b)
    (hbc : b.waiting < c) :
    ∀ (i : Nat), (i : Int) ≤ b.waiting → ∀ (q : Nat), q < c →
      (q + i = p ∨ q + i = p + c) →
      ∃ bq, B[q]? = some bq ∧ b.waiting - i ≤ bq.waiting := by
  have hp : p < c := hS.len ▸ get_lt hb
  intro i
  induction i with
  | zero =>
    intro _ q hq hpos
    have : q = p := by omega
    subst this
    exact ⟨b, hb, by simp⟩
  | succ i ih =>
    intro hi q hq hpos
    have hn : next_id c q < c := next_id_lt hq
    have hpos' : next_id c q + i = p ∨ next_id c q + i = p + c := by
      unfold next_id
      split <;> omega
    obtain ⟨bn, hbn, hle⟩ := ih (by omega) (next_id c q) hn hpos'
    obtain ⟨bq, hbq⟩ := get_of_lt (hS.len.symm ▸ hq)
    have := hR q bq bn hbq hbn
    refine ⟨bq, hbq, ?_⟩
    push_cast
    omega

/-- The walk of `receive_pos_` comes to an end, and a position it returns is an occupied
slot whose entry has the key. -/
theorem receive_pos_loop_total [DecidableEq K] {hash_ : K → Nat} {s : HashMap K V}
    (hS : Slots hash_ s.capasity_ s.elements s.buckets) (key : K) :
    ∀ (fuel cur : Nat) (wait : Int), cur < s.capasity_ → 0 ≤ wait → wait ≤ s.capasity_ →
      (s.capasity_ : Int) + 1 ≤ wait + fuel →
      ∃ r, receive_pos_loop s key fuel cur wait = some r ∧
        ∀ (q : Nat), r = some q → ∃ (b : node) (v : V), s.buckets[q]? = some b ∧
          b.waiting ≠ -1 ∧ deref s.elements b.iter = some (key, v) := by
  intro fuel
  induction fuel with
  | zero => intro cur wait _ _ h1 h2; omega
  | succ fuel ih =>
    intro cur wait hcur hw0 hwc hfuel
    obtain ⟨b, hb⟩ := get_of_lt (hS.len.symm ▸ hcur)
    simp only [receive_pos_loop, hb]
    by_cases hge : b.waiting ≥ wait
    · rw [if_pos hge]
      have hne : b.waiting ≠ -1 := by omega
      rcases hS.dist cur b hb hne with ⟨e, he, _, hbc, _⟩
      simp only [he]
      by_cases hk : key = e.1
      · rw [if_pos hk]
        refine ⟨some cur, rfl, ?_⟩
        intro q hq
        cases hq
        refine ⟨b, e.2, hb, hne, ?_⟩
        rw [he, hk]
      · rw [if_neg hk]
        exact ih (next_id s.capasity_ cur) (wait + 1) (next_id_lt hcur) (by omega) (by omega)
          (by push_cast at hfuel ⊢; omega)
    · rw [if_neg hge]
      exact ⟨none, rfl, fun q hq => by cases hq⟩

/-- The walk of `receive_pos_` does not stop before the slot of a present key. -/
theorem receive_pos_loop_complete [DecidableEq K] {hash_ : K → Nat} {s : HashMap K V}
    (hS : Slots hash_ s.capasity_ s.elements s.buckets) (hR : RH s.capasity_ s.buckets)
    {key : K} {p : Nat} {b : node} {e : K × V} (hb : s.buckets[p]? = some b)
    (hbw : 0 ≤ b.waiting) (hbc : b.waiting < s.capasity_)
    (he : deref s.elements b.iter = some e) (hk : key = e.1) :
    ∀ (fuel cur : Nat) (wait : Int), cur < s.capasity_ → 0 ≤ wait → wait ≤ b.waiting →
      ((cur : Int) + (b.waiting - wait) = p ∨
        (cur : Int) + (b.waiting - wait) = p + s.capasity_) →
      b.waiting - wait + 1 ≤ fuel →
      ∃ q, receive_pos_loop s key fuel cur wait = some (some q) := by
  intro fuel
  induction fuel with
  | zero => intro cur wait _ _ h1 _ h2; omega
  | succ fuel ih =>
    intro cur wait hcur hw0 hwd hpos hfuel
    have hp : p < s.capasity_ := hS.len ▸ get_lt hb
    obtain ⟨bq, hbq, hle⟩ := rh_back hS hR hb hbc (b.waiting - wait).toNat (by omega) cur hcur
      (by omega)
    simp only [receive_pos_loop, hbq]
    have hge : bq.waiting ≥ wait := by omega
    rw [if_pos hge]
    rcases hS.dist cur bq hbq (by omega) with ⟨e', he', _, _, _⟩
    simp only [he']
    by_cases hk' : key = e'.1
    · rw [if_pos hk']
      exact ⟨cur, rfl⟩
    · rw [if_neg hk']
      have hlt : wait < b.waiting := by
        by_contra hcon
        have hweq : wait = b.waiting := by omega
        have : cur = p := by omega
        subst this
        rw [hb] at hbq
        cases hbq
        rw [he] at he'
        cases he'
        exact hk' hk
      apply ih (next_id s.capasity_ cur) (wait + 1) (next_id_lt hcur) (by omega) (by omega)
      · unfold next_id
        split <;> (push_cast; omega)
      · push_cast at hfuel ⊢
        omega

theorem mem_keys_iff {s : HashMap K V} {k : K} :
    k ∈ s.toList.map Prod.fst ↔ ∃ (a : Nat) (v : V), (a, (k, v)) ∈ s.elements := by
  simp only [HashMap.toList, List.mem_map]
  constructor
  · rintro ⟨kv, ⟨x, hx, rfl⟩, rfl⟩
    exact ⟨x.1, x.2.2, hx⟩
  · rintro ⟨a, v, h⟩
    exact ⟨(k, v), ⟨(a, (k, v)), h, rfl⟩, rfl⟩

/-- The method `receive_pos_` under the invariant: it returns, it finds a position
exactly for the present keys, and the position is the occupied slot of the key. -/
theorem receive_pos__spec [DecidableEq K] {hash_ : K → Nat} {s : HashMap K V}
    (hI : MapInv hash_ s) (key : K) :
    ∃ r, receive_pos_ hash_ s key = some r ∧
      (r ≠ none ↔ key ∈ s.toList.map Prod.fst) ∧
      ∀ (q : Nat), r = some q → ∃ (b : node) (v : V), s.buckets[q]? = some b ∧
        b.waiting ≠ -1 ∧ deref s.elements b.iter = some (key, v) := by
  have hc := hI.cap_pos
  have hhome := Nat.mod_lt (hash_ key) hc
  obtain ⟨r, hr, hsound⟩ := receive_pos_loop_total hI.slots key (s.capasity_ + 1)
    (hash_ key % s.capasity_) 0 hhome (le_refl _) (by omega) (by push_cast; omega)
  have hrun : receive_pos_ hash_ s key = some r := by
    unfold receive_pos_
    rw [if_neg (by omega)]
    exact hr
  refine ⟨r, hrun, ?_, hsound⟩
  constructor
  · intro hne
    cases r with
    | none => exact absurd rfl hne
    | some q =>
      obtain ⟨b, v, _, _, hd⟩ := hsound q rfl
      exact mem_keys_iff.mpr ⟨b.iter, v, deref_some_mem hd⟩
  · intro hmem
    obtain ⟨a, v, hav⟩ := mem_keys_iff.mp hmem
    have ha : a ∈ occ s.buckets :=
      hI.perm.symm.subset (List.mem_map.mpr ⟨(a, (key, v)), hav, rfl⟩)
    obtain ⟨p, b, hb, hbw, hba⟩ := occ_mem_inv ha
    have hd : deref s.elements b.iter = some (key, v) := by
      rw [hba]; exact deref_of_mem hI.addrs hav
    rcases hI.slots.dist p b hb hbw with ⟨e, he, hb0, hbc, hpos⟩
    rw [hd] at he
    cases he
    obtain ⟨q, hq⟩ := receive_pos_loop_complete hI.slots hI.rh hb hb0 hbc hd rfl
      (s.capasity_ + 1) (hash_ key % s.capasity_) 0 hhome (le_refl _) hb0
      (by simp only at hpos; omega) (by push_cast; omega)
    rw [hr] at hq
    cases hq
    simp

/-! ### The backward shift and the method `erase_` -/

theorem get_shift_cases {B : List node} {cur next p : Nat} {bn bc x y : node}
    (h : (((B.set cur bn).set next bc).set cur x)[p]? = some y) :
    (p = cur ∧ y = x) ∨ (p ≠ cur ∧ p = next ∧ y = bc) ∨
      (p ≠ cur ∧ p ≠ next ∧ B[p]? = some y) := by
  rcases get_set_cases h with ⟨h1, h2⟩ | ⟨h1, h'⟩
  · exact Or.inl ⟨h1, h2⟩
  · rcases get_set_cases h' with ⟨h3, h4⟩ | ⟨h3, h''⟩
    · exact Or.inr (Or.inl ⟨h1, h3, h4⟩)
    · rcases get_set_cases h'' with ⟨h5, _⟩ | ⟨_, h'''⟩
      · exact absurd h5 h1
      · exact Or.inr (Or.inr ⟨h1, h3, h'''⟩)

theorem get_shift_other {B : List node} {cur next p : Nat} (bn bc x : node)
    (h1 : p ≠ cur) (h2 : p ≠ next) :
    (((B.set cur bn).set next bc).set cur x)[p]? = B[p]? := by
  rw [List.getElem?_set_ne (fun e => h1 e.symm), List.getElem?_set_ne (fun e => h2 e.symm),
    List.getElem?_set_ne (fun e => h1 e.symm)]

theorem get_shift_next {B : List node} {cur next : Nat} (bn bc x : node)
    (h1 : next ≠ cur) (h2 : next < B.length) :
    (((B.set cur bn).set next bc).set cur x)[next]? = some bc := by
  rw [List.getElem?_set_ne (fun e => h1 e.symm), List.getElem?_set_self]
  rw [List.length_set]
  exact h2

theorem next_id_ne {c p : Nat} (hc : 2 ≤ c) : next_id c p ≠ p := by
  unfold next_id
  split <;> omega

theorem next_id_next_ne {c p : Nat} (hc : 3 ≤ c) : next_id c (next_id c p) ≠ p := by
  unfold next_id
  split <;> split <;> omega

/-- The backward shift of `erase_` comes to an end and restores the Robin-Hood ordering
around the freed slot; it keeps the set of occupied addresses. -/
theorem erase_shift_spec (hash_ : K → Nat) (c : Nat) (E : List (Nat × (K × V)))
    (hc : 3 ≤ c) :
    ∀ (fuel : Nat) (B : List node) (cur : Nat) (bc : node),
      Slots hash_ c E B → cur < c → B[cur]? = some bc → bc.waiting = -1 →
      (∀ (p : Nat) (b b' : node), p ≠ cur → B[p]? = some b → B[next_id c p]? = some b' →
        b'.waiting ≤ b.waiting + 1) →
      (∀ (q : Nat) (bq bn : node), next_id c q = cur → B[q]? = some bq →
        B[next_id c cur]? = some bn → bn.waiting ≤ bq.waiting + 2) →
      (∃ (j e : Nat) (be : node), j < fuel ∧ j + 2 ≤ c ∧
        (next_id c cur + j = e ∨ next_id c cur + j = e + c) ∧
        B[e]? = some be ∧ be.waiting = -1) →
      ∃ B', erase_shift c fuel B cur (next_id c cur) = some B' ∧ Slots hash_ c E B' ∧
        RH c B' ∧ (occ B').Perm (occ B) := by
  intro fuel
  induction fuel with
  | zero =>
    intro B cur bc _ _ _ _ _ _ hex
    rcases hex with ⟨j, e, be, hj, _⟩
    omega
  | succ fuel ih =>
    intro B cur bc hS hcur hbc hbcw hRx haux hex
    rcases hex with ⟨j, e, be, hj, hjc, hpos, hbe, hwe⟩
    have hnlt : next_id c cur < c := next_id_lt hcur
    have hnne : next_id c cur ≠ cur := next_id_ne (by omega)
    have he : e < c := hS.len ▸ get_lt hbe
    have hlen : next_id c cur < B.length := by rw [hS.len]; exact hnlt
    have hlenc : cur < B.length := by rw [hS.len]; exact hcur
    obtain ⟨bn, hbn⟩ := get_of_lt hlen
    simp only [erase_shift, hbn]
    by_cases hgt : bn.waiting > 0
    · rw [if_pos hgt]
      simp only [hbc]
      have hbnw : bn.waiting ≠ -1 := by omega
      rcases hS.dist _ bn hbn hbnw with ⟨en, hen, _, hbnc, hhome⟩
      have hm := Nat.mod_lt (hash_ en.1) (by omega : 0 < c)
      have hj0 : j ≠ 0 := by
        intro hj0
        subst hj0
        have : e = next_id c cur := by omega
        subst this
        rw [hbn] at hbe
        cases hbe
        omega
      have hecur : e ≠ cur := by
        revert hpos
        unfold next_id
        split <;> omega
      have henext : e ≠ next_id c cur := by omega
      have hnn : next_id c (next_id c cur) ≠ cur := next_id_next_ne hc
      have hnn' : next_id c (next_id c cur) ≠ next_id c cur := next_id_ne (by omega)
      obtain ⟨B', hrun, hS', hR', hperm⟩ :=
        ih (((B.set cur bn).set (next_id c cur) bc).set cur ⟨bn.iter, bn.waiting - 1⟩)
          (next_id c cur) bc
          (by
            refine ⟨by simp [hS.len], ?_, ?_⟩
            · intro p y hy
              rcases get_shift_cases hy with ⟨_, rfl⟩ | ⟨_, _, rfl⟩ | ⟨_, _, hy'⟩
              · simp only; omega
              · omega
              · exact hS.ge p y hy'
            · intro p y hy hyw
              rcases get_shift_cases hy with ⟨rfl, rfl⟩ | ⟨_, _, rfl⟩ | ⟨_, _, hy'⟩
              · refine ⟨en, hen, by simp only; omega, by simp only; omega, ?_⟩
                revert hhome
                unfold next_id
                simp only
                split <;> omega
              · exact absurd hbcw hyw
              · exact hS.dist p y hy' hyw)
          hnlt (get_shift_next _ _ _ hnne hlen) hbcw
          (by
            intro p b b' hp hb hb'
            rcases get_shift_cases hb with ⟨rfl, rfl⟩ | ⟨_, h2, _⟩ | ⟨h1, h2, hb0⟩
            · rw [get_shift_next _ _ _ hnne hlen] at hb'
              cases hb'
              simp only
              omega
            · exact absurd h2 hp
            · rcases get_shift_cases hb' with ⟨h3, rfl⟩ | ⟨_, h4, _⟩ | ⟨h3, _, hb0'⟩
              · have := haux p b bn h3 hb0 hbn
                simp only
                omega
              · have hplt : p < c := hS.len ▸ get_lt hb0
                exact absurd (next_id_inj hplt hcur h4) h1
              · exact hRx p b b' h1 hb0 hb0')
          (by
            intro q bq bn' hq hbq hbn'
            have hqlt : q < c := by
              have := get_lt hbq
              simpa [hS.len] using this
            have hqc : q = cur := next_id_inj hqlt hcur hq
            subst hqc
            rw [List.getElem?_set_self (by simp [hS.len]; exact hcur)] at hbq
            cases hbq
            rw [get_shift_other _ _ _ hnn hnn'] at hbn'
            have := hRx (next_id c q) bn bn' hnne hbn hbn'
            simp only
            omega)
          ⟨j - 1, e, be, by omega, by omega, by
              have : next_id c (next_id c cur) = if next_id c cur + 1 = c then 0
                  else next_id c cur + 1 := rfl
              rw [this]
              split <;> omega,
            by rw [get_shift_other _ _ _ hecur henext]; exact hbe, hwe⟩
      refine ⟨B', hrun, hS', hR', hperm.trans ?_⟩
      have h1 : (occ (B.set cur bn)).Perm (bn.iter :: occ B) :=
        occ_set_empty_full bn hbc hbcw hbnw
      have hb1 : (B.set cur bn)[next_id c cur]? = some bn := by
        rw [List.getElem?_set_ne (fun e => hnne e.symm)]; exact hbn
      have h2 : (bn.iter :: occ ((B.set cur bn).set (next_id c cur) bc)).Perm
          (occ (B.set cur bn)) :=
        occ_set_full_empty bc hb1 hbnw hbcw
      have hb2 : ((B.set cur bn).set (next_id c cur) bc)[cur]? = some bn := by
        rw [List.getElem?_set_ne hnne, List.getElem?_set_self hlenc]
      have h3 := occ_set_full_full (⟨bn.iter, bn.waiting - 1⟩ : node) hb2 hbnw
        (by simp only; omega)
      exact h3.cons_inv.trans (h2.trans h1).cons_inv
    · rw [if_neg hgt]
      refine ⟨B, rfl, hS, ?_, List.Perm.refl _⟩
      intro p b b' hb hb'
      by_cases hp : p = cur
      · subst hp
        rw [hbc] at hb
        cases hb
        rw [hbn] at hb'
        cases hb'
        omega
      · exact hRx p b b' hp hb hb'

theorem deref_cons (x : Nat × (K × V)) (xs : List (Nat × (K × V))) (h : Nat) :
    deref (x :: xs) h = if x.1 = h then some x.2 else deref xs h := rfl

theorem deref_filter (E : List (Nat × (K × V))) (a h : Nat) :
    deref (E.filter (fun e => decide (e.1 ≠ a))) h = if h = a then none else deref E h := by
  induction E with
  | nil => simp [deref]
  | cons x xs ih =>
    by_cases hx : x.1 = a
    · rw [List.filter_cons_of_neg (by simpa using hx), ih, deref_cons]
      by_cases hh : h = a
      · rw [if_pos hh, if_pos hh]
      · rw [if_neg hh, if_neg hh, if_neg (by omega)]
    · rw [List.filter_cons_of_pos (by simpa using hx), deref_cons, deref_cons]
      by_cases hxh : x.1 = h
      · rw [if_pos hxh, if_pos hxh, if_neg (by omega)]
      · rw [if_neg hxh, if_neg hxh, ih]

theorem filter_addr_eq_filter_key {E : List (Nat × (K × V))} [DecidableEq K]
    (ha : (E.map Prod.fst).Nodup) (hk : ((E.map Prod.snd).map Prod.fst).Nodup)
    {a : Nat} {k : K} {v : V} (hd : deref E a = some (k, v)) :
    (E.filter (fun e => decide (e.1 ≠ a))).map Prod.snd =
      (E.map Prod.snd).filter (fun kv => decide (kv.1 ≠ k)) := by
  have hmem := deref_some_mem hd
  rw [List.filter_map]
  congr 1
  apply List.filter_congr
  intro x hx
  simp only [Function.comp, decide_eq_decide]
  rw [List.map_map] at hk
  constructor
  · intro h1 h2
    have := List.inj_on_of_nodup_map hk hx hmem (by simpa using h2)
    rw [this] at h1
    exact h1 rfl
  · intro h1 h2
    have := List.inj_on_of_nodup_map ha hx hmem (by simpa using h2)
    rw [this] at h1
    exact h1 rfl

theorem perm_filter_of_cons {a : Nat} {l l' : List Nat} (hnd : l.Nodup)
    (h : (a :: l').Perm l) : l'.Perm (l.filter (fun x => decide (x ≠ a))) := by
  have hnd' : (a :: l').Nodup := h.nodup_iff.mpr hnd
  rw [List.nodup_cons] at hnd'
  have h1 := h.filter (fun x => decide (x ≠ a))
  rw [List.filter_cons_of_neg (by simp)] at h1
  have h2 : l'.filter (fun x => decide (x ≠ a)) = l' := by
    rw [List.filter_eq_self]
    intro x hx
    have : x ≠ a := fun e => hnd'.1 (e ▸ hx)
    simpa using this
  rw [h2] at h1
  exact h1

/-- The first walk of `erase_` ends at an occupied slot whose entry has the key. -/
theorem erase_find_spec [DecidableEq K] {hash_ : K → Nat} {s : HashMap K V}
    (hS : Slots hash_ s.capasity_ s.elements s.buckets) (hR : RH s.capasity_ s.buckets)
    {key : K} {p : Nat} {b : node} {e : K × V} (hb : s.buckets[p]? = some b)
    (hbc : b.waiting < s.capasity_)
    (he : deref s.elements b.iter = some e) (hk : e.1 = key) :
    ∀ (fuel cur i : Nat), cur < s.capasity_ → (i : Int) ≤ b.waiting →
      (cur + i = p ∨ cur + i = p + s.capasity_) → i + 1 ≤ fuel →
      ∃ (q : Nat) (bq : node) (v : V), erase_find s key fuel cur = some q ∧
        s.buckets[q]? = some bq ∧ bq.waiting ≠ -1 ∧
        deref s.elements bq.iter = some (key, v) := by
  have hp : p < s.capasity_ := hS.len ▸ get_lt hb
  intro fuel
  induction fuel with
  | zero => intro cur i _ _ _ h; omega
  | succ fuel ih =>
    intro cur i hcur hi hpos hfuel
    obtain ⟨bq, hbq, hle⟩ := rh_back hS hR hb hbc i hi cur hcur hpos
    have hbqw : bq.waiting ≠ -1 := by omega
    rcases hS.dist cur bq hbq hbqw with ⟨e', he', _, _, _⟩
    simp only [erase_find, hbq, he']
    by_cases hk' : e'.1 ≠ key
    · rw [if_pos hk']
      have hi0 : i ≠ 0 := by
        intro hi0
        subst hi0
        have : cur = p := by omega
        subst this
        rw [hb] at hbq
        cases hbq
        rw [he] at he'
        cases he'
        exact hk' hk
      have := ih (next_id s.capasity_ cur) (i - 1) (next_id_lt hcur) (by omega)
        (by unfold next_id; split <;> omega) (by omega)
      exact this
    · rw [if_neg hk']
      refine ⟨cur, bq, e'.2, rfl, hbq, hbqw, ?_⟩
      rw [he']
      have : e'.1 = key := by
        by_contra hcon
        exact hk' hcon
      rw [← this]

/-- The method `erase_` on a present key keeps the invariant and removes the pair with
the key from the entry list, leaving the others in order. -/
theorem erase__spec [DecidableEq K] {hash_ : K → Nat} {s : HashMap K V} (hI : MapInv hash_ s)
    (hc : 3 ≤ s.capasity_) (hsz : s.elements.length < s.capasity_) (key : K)
    (hk : key ∈ s.toList.map Prod.fst) :
    ∃ s', erase_ hash_ s key = some s' ∧ MapInv hash_ s' ∧ s'.capasity_ = s.capasity_ ∧
      s'.toList = s.toList.filter (fun kv => decide (kv.1 ≠ key)) ∧
      s'.elements.length ≤ s.elements.length := by
  have hhome := Nat.mod_lt (hash_ key) (by omega : 0 < s.capasity_)
  -- the slot of the key
  obtain ⟨a, v, hav⟩ := mem_keys_iff.mp hk
  have ha : a ∈ occ s.buckets :=
    hI.perm.symm.subset (List.mem_map.mpr ⟨(a, (key, v)), hav, rfl⟩)
  obtain ⟨p, b, hb, hbw, hba⟩ := occ_mem_inv ha
  have hd : deref s.elements b.iter = some (key, v) := by
    rw [hba]; exact deref_of_mem hI.addrs hav
  rcases hI.slots.dist p b hb hbw with ⟨e, he, hb0, hbc, hpos⟩
  rw [hd] at he
  cases he
  have hp : p < s.capasity_ := hI.slots.len ▸ get_lt hb
  obtain ⟨q, bq, vq, hfind, hbq, hbqw, hdq⟩ := erase_find_spec hI.slots hI.rh hb hbc hd rfl
    s.capasity_ (hash_ key % s.capasity_) b.waiting.toNat hhome (by omega)
    (by simp only at hpos; omega) (by omega)
  have hq : q < s.capasity_ := hI.slots.len ▸ get_lt hbq
  have hqlen : q < s.buckets.length := get_lt hbq
  -- an empty slot other than the one of the key
  have hex : ∃ (p : Nat) (b : node), s.buckets[p]? = some b ∧ b.waiting = -1 := by
    apply exists_empty
    rw [hI.occ_length, hI.slots.len]
    exact hsz
  rcases hex with ⟨pe, be, hbe, hwe⟩
  have hpe : pe < s.capasity_ := hI.slots.len ▸ get_lt hbe
  have hpeq : pe ≠ q := by
    intro h
    subst h
    rw [hbq] at hbe
    cases hbe
    exact hbqw hwe
  have hnne : next_id s.capasity_ q ≠ q := next_id_ne (by omega)
  -- the table with the slot of the key marked empty
  have hperm0 : (bq.iter :: occ (s.buckets.set q ⟨bq.iter, -1⟩)).Perm (occ s.buckets) :=
    occ_set_full_empty ⟨bq.iter, -1⟩ hbq hbqw rfl
  have hnd0 : (bq.iter :: occ (s.buckets.set q ⟨bq.iter, -1⟩)).Nodup :=
    (hperm0.trans hI.perm).nodup_iff.mpr hI.addrs
  have hS0 : Slots hash_ s.capasity_ (s.elements.filter (fun e => decide (e.1 ≠ bq.iter)))
      (s.buckets.set q ⟨bq.iter, -1⟩) := by
    refine ⟨by rw [List.length_set]; exact hI.slots.len, ?_, ?_⟩
    · intro p' y hy
      rcases get_set_cases hy with ⟨_, rfl⟩ | ⟨_, hy'⟩
      · simp
      · exact hI.slots.ge p' y hy'
    · intro p' y hy hyw
      rcases get_set_cases hy with ⟨_, rfl⟩ | ⟨_, hy'⟩
      · exact absurd rfl hyw
      · rcases hI.slots.dist p' y hy' hyw with ⟨e', he', h0, h1, h2⟩
        refine ⟨e', ?_, h0, h1, h2⟩
        rw [deref_filter, if_neg, he']
        intro heq
        have hm := occ_mem hy hyw
        rw [heq] at hm
        exact (List.nodup_cons.mp hnd0).1 hm
  obtain ⟨B', hrun, hS', hR', hperm'⟩ :=
    erase_shift_spec hash_ s.capasity_ (s.elements.filter (fun e => decide (e.1 ≠ bq.iter)))
      hc s.capasity_ (s.buckets.set q ⟨bq.iter, -1⟩) q ⟨bq.iter, -1⟩ hS0 hq
      (List.getElem?_set_self hqlen) rfl
      (by
        intro p' y y' hp' hy hy'
        rw [List.getElem?_set_ne (fun e => hp' e.symm)] at hy
        rcases get_set_cases hy' with ⟨_, rfl⟩ | ⟨_, hy''⟩
        · have := hI.slots.ge p' y hy
          simp only
          omega
        · exact hI.rh p' y y' hy hy'')
      (by
        intro q' y y' hq' hy hy'
        have hq'ne : q' ≠ q := by
          intro h
          rw [h] at hq'
          exact hnne hq'
        rw [List.getElem?_set_ne (fun e => hq'ne e.symm)] at hy
        rw [List.getElem?_set_ne (fun e => hnne e.symm)] at hy'
        have h1 := hI.rh q' y bq hy (hq' ▸ hbq)
        have h2 := hI.rh q bq y' hbq hy'
        omega)
      (by
        have hbe' : (s.buckets.set q ⟨bq.iter, -1⟩)[pe]? = some be := by
          rw [List.getElem?_set_ne (fun e => hpeq e.symm)]; exact hbe
        by_cases hle : next_id s.capasity_ q ≤ pe
        · refine ⟨pe - next_id s.capasity_ q, pe, be, ?_, ?_, ?_, hbe', hwe⟩
          · omega
          · revert hle; unfold next_id; split <;> omega
          · omega
        · refine ⟨pe + s.capasity_ - next_id s.capasity_ q, pe, be, ?_, ?_, ?_, hbe', hwe⟩
          · have := next_id_lt hq; omega
          · revert hle; unfold next_id; split <;> omega
          · have := next_id_lt hq; omega)
  refine ⟨{ capasity_ := s.capasity_,
            elements := s.elements.filter (fun e => decide (e.1 ≠ bq.iter)),
            buckets := B' }, ?_, ?_, rfl, ?_, List.length_filter_le _ _⟩
  · unfold erase_
    rw [if_neg (by omega)]
    simp only [hfind, hbq, hrun]
  · refine ⟨by simp only; omega, ?_, ?_, hS', hR', ?_⟩
    · exact hI.addrs.sublist ((List.filter_sublist _).map _)
    · exact hI.keys.sublist (((List.filter_sublist _).map _).map _)
    · have h := perm_filter_of_cons hI.addrs (hperm0.trans hI.perm)
      rw [List.filter_map] at h
      exact hperm'.trans h
  · simp only [HashMap.toList]
    exact filter_addr_eq_filter_key hI.addrs hI.keys hdq

/-! ### The rehash and the public operations -/

/-- A probe index of empty slots together with an empty entry list has the invariant. -/
theorem MapInv_fresh (hash_ : K → Nat) (c : Nat) (hc : 0 < c) :
    MapInv hash_ ({ capasity_ := c, elements := [], buckets := List.replicate c ⟨0, -1⟩ } :
      HashMap K V) := by
  have hrep : ∀ (p : Nat) (b : node), (List.replicate c (⟨0, -1⟩ : node))[p]? = some b →
      b.waiting = -1 := by
    intro p b h
    rw [List.getElem?_replicate] at h
    split at h
    · cases h; rfl
    · cases h
  refine ⟨hc, List.nodup_nil, List.nodup_nil, ⟨List.length_replicate _ _, ?_, ?_⟩, ?_, ?_⟩
  · intro p b h
    have := hrep p b h
    omega
  · intro p b h hw
    exact absurd (hrep p b h) hw
  · intro p b b' h h'
    have h1 := hrep p b h
    have h2 := hrep _ b' h'
    omega
  · simp only [occ_replicate, List.map_nil]
    exact List.Perm.refl _

theorem toList_length (s : HashMap K V) : s.toList.length = s.elements.length := by
  simp [HashMap.toList]

/-- The loop of the rehash appends the pairs one by one and keeps the invariant. -/
theorem insert_all_spec (hash_ : K → Nat) :
    ∀ (xs : List (K × V)) (s : HashMap K V), MapInv hash_ s →
      s.elements.length + xs.length < s.capasity_ →
      ((s.toList ++ xs).map Prod.fst).Nodup →
      ∃ s', insert_all hash_ xs s = some s' ∧ MapInv hash_ s' ∧ s'.capasity_ = s.capasity_ ∧
        s'.toList = s.toList ++ xs := by
  intro xs
  induction xs with
  | nil =>
    intro s hI _ _
    exact ⟨s, rfl, hI, rfl, by simp⟩
  | cons x rest ih =>
    intro s hI hlen hnd
    have hk : x.1 ∉ s.toList.map Prod.fst := by
      rw [List.map_append, List.map_cons, List.nodup_append] at hnd
      intro hmem
      exact hnd.2.2 hmem (List.mem_cons_self _ _)
    simp only [List.length_cons] at hlen
    obtain ⟨s1, hrun1, hI1, hc1, he1⟩ := insert__spec hI (by omega) x hk
    have ht1 : s1.toList = s.toList ++ [x] := by
      simp [HashMap.toList, he1]
    obtain ⟨s', hrun', hI', hc', ht'⟩ := ih s1 hI1
      (by rw [he1, hc1, List.length_append]; simp only [List.length_singleton]; omega)
      (by rw [ht1, List.append_assoc]; exact hnd)
    refine ⟨s', ?_, hI', hc'.trans hc1, ?_⟩
    · simp only [insert_all, hrun1]
      exact hrun'
    · rw [ht', ht1, List.append_assoc]
      rfl

/-- The method `check_and_rehash` returns at once when the entries are fewer than the
slots. -/
theorem check_and_rehash_small (hash_ : K → Nat) (s : HashMap K V) (hc : 0 < s.capasity_)
    (hsz : s.elements.length < s.capasity_) : check_and_rehash hash_ s = some s := by
  unfold check_and_rehash
  rw [if_neg (by omega)]
  simp only
  rw [Nat.div_eq_of_lt hsz, if_pos (by omega)]

/-- The method `check_and_rehash` rebuilds the probe index when the entries are at least
as many as the slots. -/
theorem check_and_rehash_full (hash_ : K → Nat) (s : HashMap K V) (hc : 0 < s.capasity_)
    (hsz : s.capasity_ ≤ s.elements.length) (hk : (s.toList.map Prod.fst).Nodup) :
    ∃ s', check_and_rehash hash_ s = some s' ∧ MapInv hash_ s' ∧
      s'.capasity_ = 5 * s.elements.length + 20 ∧ s'.toList = s.toList := by
  have hdiv : 1 ≤ s.elements.length / s.capasity_ := by
    rw [Nat.le_div_iff_mul_le hc]
    omega
  obtain ⟨s', hrun, hI', hc', ht'⟩ := insert_all_spec hash_ s.toList
    { capasity_ := 5 * s.elements.length + 20, elements := [],
      buckets := List.replicate (5 * s.elements.length + 20) ⟨0, -1⟩ }
    (MapInv_fresh hash_ _ (by omega))
    (by simp only [List.length_nil, toList_length]; omega)
    (by simpa [HashMap.toList] using hk)
  refine ⟨s', ?_, hI', hc', ?_⟩
  · unfold check_and_rehash
    rw [if_neg (by omega)]
    simp only
    rw [if_neg (by omega)]
    exact hrun
  · rw [ht']
    simp [HashMap.toList]

/-- The method `insert` on a well-formed state. -/
theorem insert_spec [DecidableEq K] {hash_ : K → Nat} {s : HashMap K V} (hW : WF hash_ s)
    (x : K × V) :
    ∃ s', insert hash_ s x = some s' ∧ WF hash_ s' ∧
      (x.1 ∈ s.toList.map Prod.fst → s' = s) ∧
      (x.1 ∉ s.toList.map Prod.fst → s'.toList = s.toList ++ [x] ∧
        s'.capasity_ = if s.elements.length + 1 = s.capasity_
          then 5 * (s.elements.length + 1) + 20 else s.capasity_) := by
  obtain ⟨r, hr, hiff, _⟩ := receive_pos__spec hW.inv x.1
  cases r with
  | some q =>
    have hmem : x.1 ∈ s.toList.map Prod.fst := hiff.mp (by simp)
    refine ⟨s, ?_, hW, fun _ => rfl, fun h => absurd hmem h⟩
    simp only [insert, hr]
  | none =>
    have hnm : x.1 ∉ s.toList.map Prod.fst := fun h => (hiff.mpr h) rfl
    obtain ⟨s1, hrun1, hI1, hc1, he1⟩ := insert__spec hW.inv hW.size_lt x hnm
    have ht1 : s1.toList = s.toList ++ [x] := by
      simp [HashMap.toList, he1]
    have hl1 : s1.elements.length = s.elements.length + 1 := by
      rw [he1, List.length_append]; rfl
    by_cases hfull : s.elements.length + 1 = s.capasity_
    · obtain ⟨s', hrun', hI', hc', ht'⟩ := check_and_rehash_full hash_ s1 hI1.cap_pos
        (by omega) hI1.keys
      refine ⟨s', ?_, ⟨hI', by omega, ?_⟩, fun h => absurd h hnm, fun _ => ⟨?_, ?_⟩⟩
      · simp only [insert, hr, hrun1]
        exact hrun'
      · have : s'.elements.length = s1.elements.length := by
          rw [← toList_length, ht', toList_length]
        omega
      · rw [ht', ht1]
      · rw [if_pos hfull, hc', hl1]
    · have hrun' := check_and_rehash_small hash_ s1 hI1.cap_pos
        (by have := hW.size_lt; omega)
      refine ⟨s1, ?_, ⟨hI1, by have := hW.cap_ge; omega, by have := hW.size_lt; omega⟩,
        fun h => absurd h hnm, fun _ => ⟨ht1, ?_⟩⟩
      · simp only [insert, hr, hrun1]
        exact hrun'
      · rw [if_neg hfull, hc1]

/-- The method `erase` on a well-formed state. -/
theorem erase_spec [DecidableEq K] {hash_ : K → Nat} {s : HashMap K V} (hW : WF hash_ s) (k : K) :
    ∃ s', erase hash_ s k = some s' ∧ WF hash_ s' ∧
      (k ∉ s.toList.map Prod.fst → s' = s) ∧
      s'.toList = s.toList.filter (fun kv => decide (kv.1 ≠ k)) ∧
      s'.capasity_ = s.capasity_ := by
  obtain ⟨r, hr, hiff, _⟩ := receive_pos__spec hW.inv k
  cases r with
  | none =>
    have hnm : k ∉ s.toList.map Prod.fst := fun h => (hiff.mpr h) rfl
    refine ⟨s, ?_, hW, fun _ => rfl, ?_, rfl⟩
    · simp only [erase, hr]
    · symm
      rw [List.filter_eq_self]
      intro kv hkv
      have : kv.1 ≠ k := by
        intro h
        apply hnm
        rw [← h]
        exact List.mem_map_of_mem _ hkv
      simpa using this
  | some q =>
    have hmem : k ∈ s.toList.map Prod.fst := hiff.mp (by simp)
    obtain ⟨s', hrun, hI', hc', ht', hl'⟩ := erase__spec hW.inv
      (by have := hW.cap_ge; omega) hW.size_lt k hmem
    refine ⟨s', ?_, ⟨hI', by have := hW.cap_ge; omega, by have := hW.size_lt; omega⟩,
      fun h => absurd hmem h, ht', hc'⟩
    simp only [erase, hr]
    exact hrun

/-- The method `clear` gives a well-formed state. -/
theorem clear_spec (hash_ : K → Nat) (s : HashMap K V) : WF hash_ (clear s) :=
  ⟨MapInv_fresh hash_ 20 (by omega), le_refl _, by simp [clear]⟩

/-- The constructor gives a well-formed state. -/
theorem init_spec (hash_ : K → Nat) : WF hash_ (HashMap.init : HashMap K V) :=
  ⟨MapInv_fresh hash_ 20 (by omega), le_refl _, by simp [HashMap.init]⟩

theorem deref_write (E : List (Nat × (K × V))) (r a : Nat) (v : V) :
    deref (E.map (fun e => if e.1 = r then (e.1, (e.2.1, v)) else e)) a =
      (deref E a).map (fun kv => if a = r then (kv.1, v) else kv) := by
  induction E with
  | nil => rfl
  | cons x xs ih =>
    rw [List.map_cons, deref_cons, deref_cons]
    by_cases hx : x.1 = r
    · simp only [if_pos hx]
      by_cases hxa : x.1 = a
      · rw [if_pos hxa, if_pos hxa, Option.map_some', if_pos (by omega)]
      · rw [if_neg hxa, if_neg hxa, ih]
    · simp only [if_neg hx]
      by_cases hxa : x.1 = a
      · rw [if_pos hxa, if_pos hxa, Option.map_some', if_neg (by omega)]
      · rw [if_neg hxa, if_neg hxa, ih]

theorem write_fst (E : List (Nat × (K × V))) (r : Nat) (v : V) :
    (E.map (fun e => if e.1 = r then (e.1, (e.2.1, v)) else e)).map Prod.fst =
      E.map Prod.fst := by
  rw [List.map_map]
  apply List.map_congr_left
  intro e _
  simp only [Function.comp]
  split <;> rfl

theorem write_keys (E : List (Nat × (K × V))) (r : Nat) (v : V) :
    ((E.map (fun e => if e.1 = r then (e.1, (e.2.1, v)) else e)).map Prod.snd).map Prod.fst =
      (E.map Prod.snd).map Prod.fst := by
  rw [List.map_map, List.map_map, List.map_map]
  apply List.map_congr_left
  intro e _
  simp only [Function.comp]
  split <;> rfl

/-- Assignment through a reference keeps the invariant. -/
theorem write_ref_inv {hash_ : K → Nat} {s : HashMap K V} (hI : MapInv hash_ s) (r : Nat)
    (v : V) : MapInv hash_ (write_ref s r v) := by
  refine ⟨hI.cap_pos, ?_, ?_, ⟨hI.slots.len, hI.slots.ge, ?_⟩, hI.rh, ?_⟩
  · simp only [write_ref]
    rw [write_fst]
    exact hI.addrs
  · simp only [write_ref, HashMap.toList]
    rw [write_keys]
    exact hI.keys
  · intro p b hb hw
    rcases hI.slots.dist p b hb hw with ⟨e, he, h0, h1, h2⟩
    refine ⟨if b.iter = r then (e.1, v) else e, ?_, h0, h1, ?_⟩
    · simp only [write_ref]
      rw [deref_write, he]
      rfl
    · split
      · exact h2
      · exact h2
  · simp only [write_ref]
    rw [write_fst]
    exact hI.perm

theorem write_ref_wf {hash_ : K → Nat} {s : HashMap K V} (hW : WF hash_ s) (r : Nat)
    (v : V) : WF hash_ (write_ref s r v) :=
  ⟨write_ref_inv hW.inv r v, hW.cap_ge, by
    have := hW.size_lt
    simpa [write_ref] using this⟩

/-- Two pairs with the same key in a list of pairs with distinct keys are equal. -/
theorem value_unique {l : List (K × V)} (hnd : (l.map Prod.fst).Nodup) {k : K} {v v' : V}
    (h : (k, v) ∈ l) (h' : (k, v') ∈ l) : v = v' := by
  have := List.inj_on_of_nodup_map hnd h h' rfl
  exact (Prod.mk.inj this).2

theorem deref_mem_toList {s : HashMap K V} {a : Nat} {e : K × V}
    (h : deref s.elements a = some e) : e ∈ s.toList :=
  List.mem_map.mpr ⟨(a, e), deref_some_mem h, rfl⟩

/-- The method `find` under the invariant. -/
theorem find_spec [DecidableEq K] {hash_ : K → Nat} {s : HashMap K V} (hI : MapInv hash_ s)
    (k : K) :
    ∃ r, find hash_ s k = some r ∧ (r ≠ none ↔ k ∈ s.toList.map Prod.fst) ∧
      ∀ (a : Nat), r = some a → ∃ v, deref s.elements a = some (k, v) := by
  obtain ⟨r, hr, hiff, hs⟩ := receive_pos__spec hI k
  cases r with
  | none =>
    refine ⟨none, by simp only [find, hr], hiff, fun a h => by cases h⟩
  | some q =>
    obtain ⟨b, v, hb, _, hd⟩ := hs q rfl
    refine ⟨some b.iter, by simp only [find, hr, hb], ?_, ?_⟩
    · constructor
      · intro _
        exact hiff.mp (by simp)
      · intro _
        simp
    · intro a ha
      cases ha
      exact ⟨v, hd⟩

/-- The method `at` under the invariant. -/
theorem at_spec [DecidableEq K] {hash_ : K → Nat} {s : HashMap K V} (hI : MapInv hash_ s)
    (k : K) :
    ∃ res, at_ hash_ s k = some res ∧
      (res = AtResult.out_of_range ↔ k ∉ s.toList.map Prod.fst) ∧
      ∀ (v : V), res = AtResult.value v →
        (k, v) ∈ s.toList ∧ ∃ a, find hash_ s k = some (some a) ∧
          deref s.elements a = some (k, v) := by
  obtain ⟨r, hr, hiff, hs⟩ := receive_pos__spec hI k
  cases r with
  | none =>
    refine ⟨AtResult.out_of_range, by simp only [at_, hr], ?_, fun v h => by cases h⟩
    constructor
    · intro _ hmem
      exact (hiff.mpr hmem) rfl
    · intro _
      rfl
  | some q =>
    obtain ⟨b, v, hb, _, hd⟩ := hs q rfl
    refine ⟨AtResult.value v, by simp only [at_, hr, hb, hd], ?_, ?_⟩
    · constructor
      · intro h
        cases h
      · intro h
        exact absurd (hiff.mp (by simp)) h
    · intro v' hv'
      cases hv'
      exact ⟨deref_mem_toList hd, b.iter, by simp only [find, hr, hb], hd⟩

/-- The method `operator[]` on a well-formed state. -/
theorem index_spec [DecidableEq K] [Inhabited V] {hash_ : K → Nat} {s : HashMap K V}
    (hW : WF hash_ s)
    (k : K) :
    ∃ s' r, index hash_ s k = some (s', r) ∧ WF hash_ s' ∧
      (k ∈ s.toList.map Prod.fst → s' = s ∧ ∃ v, deref s.elements r = some (k, v)) ∧
      (k ∉ s.toList.map Prod.fst → s'.toList = s.toList ++ [(k, default)] ∧
        deref s'.elements r = some (k, default) ∧
        s'.capasity_ = if s.elements.length + 1 = s.capasity_
          then 5 * (s.elements.length + 1) + 20 else s.capasity_) := by
  obtain ⟨r, hr, hiff, hs⟩ := receive_pos__spec hW.inv k
  cases r with
  | some q =>
    have hmem : k ∈ s.toList.map Prod.fst := hiff.mp (by simp)
    obtain ⟨b, v, hb, _, hd⟩ := hs q rfl
    have hrh := check_and_rehash_small hash_ s hW.inv.cap_pos hW.size_lt
    refine ⟨s, b.iter, ?_, hW, fun _ => ⟨rfl, v, hd⟩, fun h => absurd hmem h⟩
    simp only [index, hr, hrh, value_ref, hb, hd]
  | none =>
    have hnm : k ∉ s.toList.map Prod.fst := fun h => (hiff.mpr h) rfl
    obtain ⟨s2, hins, hW2, _, habs⟩ := insert_spec hW (k, default)
    obtain ⟨ht2, hc2⟩ := habs hnm
    -- the two steps of `insert` on an absent key are the ones of `operator[]`
    have hins' : (match insert_ hash_ s (k, default) with
        | none => none
        | some s1 => check_and_rehash hash_ s1) = some s2 := by
      simpa only [insert, hr] using hins
    have hmem2 : k ∈ s2.toList.map Prod.fst := by
      rw [ht2]
      simp
    obtain ⟨r2, hr2, hiff2, hs2⟩ := receive_pos__spec hW2.inv k
    cases r2 with
    | none => exact absurd rfl (hiff2.mpr hmem2)
    | some q2 =>
      obtain ⟨b, v, hb, _, hd⟩ := hs2 q2 rfl
      have hv : v = default := by
        apply value_unique hW2.inv.keys (deref_mem_toList hd)
        rw [ht2]
        simp
      subst hv
      refine ⟨s2, b.iter, ?_, hW2, fun h => absurd h hnm, fun _ => ⟨ht2, hd, hc2⟩⟩
      simp only [index, hr]
      cases hi : insert_ hash_ s (k, default) with
      | none => rw [hi] at hins'; cases hins'
      | some s1 =>
        rw [hi] at hins'
        simp only at hins'
        simp only [hins', hr2, value_ref, hb, hd]

/-- Every public operation goes through on a well-formed state and leads to a
well-formed state. -/
theorem step_wf [DecidableEq K] [Inhabited V] {hash_ : K → Nat} {s : HashMap K V}
    (hW : WF hash_ s)
    (op : Op K V) : ∃ s', step hash_ s op = some s' ∧ WF hash_ s' := by
  cases op with
  | insert x =>
    obtain ⟨s', h, hW', _⟩ := insert_spec hW x
    exact ⟨s', h, hW'⟩
  | erase k =>
    obtain ⟨s', h, hW', _⟩ := erase_spec hW k
    exact ⟨s', h, hW'⟩
  | index k =>
    obtain ⟨s', r, h, hW', _⟩ := index_spec hW k
    exact ⟨s', by simp only [step, h], hW'⟩
  | assign k v =>
    obtain ⟨s', r, h, hW', _⟩ := index_spec hW k
    exact ⟨write_ref s' r v, by simp only [step, h], write_ref_wf hW' r v⟩
  | rehash =>
    exact ⟨s, check_and_rehash_small hash_ s hW.inv.cap_pos hW.size_lt, hW⟩
  | clear => exact ⟨clear s, rfl, clear_spec hash_ s⟩

theorem run_wf [DecidableEq K] [Inhabited V] (hash_ : K → Nat) :
    ∀ (ops : List (Op K V)) (s : HashMap K V), WF hash_ s →
      ∃ s', run hash_ ops s = some s' ∧ WF hash_ s' := by
  intro ops
  induction ops with
  | nil => intro s hW; exact ⟨s, rfl, hW⟩
  | cons op ops ih =>
    intro s hW
    obtain ⟨s1, h1, hW1⟩ := step_wf hW op
    obtain ⟨s', h', hW'⟩ := ih s1 hW1
    exact ⟨s', by simp only [run, h1]; exact h', hW'⟩

/-- Every reachable state is well-formed. -/
theorem Reachable.wf [DecidableEq K] [Inhabited V] {hash_ : K → Nat} {s : HashMap K V}
    (h : Reachable hash_ s) : WF hash_ s := by
  rcases h with ⟨ops, hops⟩
  obtain ⟨s', h', hW'⟩ := run_wf hash_ ops HashMap.init (init_spec hash_)
  rw [hops] at h'
  cases h'
  exact hW'

/-! ### Runs of operations -/

theorem eraseP_eq_filter [DecidableEq K] (k : K) :
    ∀ (l : List (K × V)), (l.map Prod.fst).Nodup →
      l.eraseP (fun kv => decide (kv.1 = k)) = l.filter (fun kv => decide (kv.1 ≠ k)) := by
  intro l
  induction l with
  | nil => intro _; rfl
  | cons x xs ih =>
    intro hnd
    rw [List.map_cons, List.nodup_cons] at hnd
    by_cases hx : x.1 = k
    · rw [List.eraseP_cons_of_pos (by simpa using hx),
        List.filter_cons_of_neg (by simpa using hx)]
      symm
      rw [List.filter_eq_self]
      intro kv hkv
      have : kv.1 ≠ k := by
        intro h
        apply hnd.1
        rw [hx, ← h]
        exact List.mem_map_of_mem _ hkv
      simpa using this
    · rw [List.eraseP_cons_of_neg (by simpa using hx),
        List.filter_cons_of_pos (by simpa using hx), ih hnd.2]

/-- The entry list of the map follows the association list through any sequence of
`insert` and `erase`. -/
theorem run_refines [DecidableEq K] [Inhabited V] (hash_ : K → Nat) :
    ∀ (ops : List (MapOp K V)) (s : HashMap K V), WF hash_ s →
      ∃ s', run hash_ (ops.map MapOp.toOp) s = some s' ∧ WF hash_ s' ∧
        s'.toList = assoc_run ops s.toList := by
  intro ops
  induction ops with
  | nil => intro s hW; exact ⟨s, rfl, hW, rfl⟩
  | cons op ops ih =>
    intro s hW
    cases op with
    | insert x =>
      obtain ⟨s1, h1, hW1, hpres, habs⟩ := insert_spec hW x
      obtain ⟨s', h', hW', ht'⟩ := ih s1 hW1
      refine ⟨s', ?_, hW', ?_⟩
      · simp only [List.map_cons, run, MapOp.toOp, step, h1]
        exact h'
      · rw [ht']
        simp only [assoc_run, assoc_insert]
        by_cases hk : x.1 ∈ s.toList.map Prod.fst
        · rw [if_pos hk, hpres hk]
        · rw [if_neg hk, (habs hk).1]
    | erase k =>
      obtain ⟨s1, h1, hW1, _, ht1, _⟩ := erase_spec hW k
      obtain ⟨s', h', hW', ht'⟩ := ih s1 hW1
      refine ⟨s', ?_, hW', ?_⟩
      · simp only [List.map_cons, run, MapOp.toOp, step, h1]
        exact h'
      · rw [ht', ht1]
        simp only [assoc_run, assoc_erase]
        rw [eraseP_eq_filter k s.toList hW.inv.keys]

theorem assoc_run_inserts [DecidableEq K] :
    ∀ (xs l : List (K × V)), ((l ++ xs).map Prod.fst).Nodup →
      assoc_run (xs.map MapOp.insert) l = l ++ xs := by
  intro xs
  induction xs with
  | nil => intro l _; simp [assoc_run]
  | cons x xs ih =>
    intro l hnd
    have hk : x.1 ∉ l.map Prod.fst := by
      rw [List.map_append, List.map_cons, List.nodup_append] at hnd
      intro hmem
      exact hnd.2.2 hmem (List.mem_cons_self _ _)
    simp only [List.map_cons, assoc_run, assoc_insert]
    rw [if_neg hk, ih (l ++ [x]) (by rw [List.append_assoc]; exact hnd), List.append_assoc]
    rfl

theorem mem_toList_of_insert [DecidableEq K] {hash_ : K → Nat} {s s' : HashMap K V}
    (hW : WF hash_ s) {x : K × V} (h : insert hash_ s x = some s') {kv : K × V}
    (hkv : kv ∈ s.toList) : kv ∈ s'.toList := by
  obtain ⟨s1, h1, _, hpres, habs⟩ := insert_spec hW x
  rw [h] at h1
  cases h1
  by_cases hk : x.1 ∈ s.toList.map Prod.fst
  · rw [hpres hk]; exact hkv
  · rw [(habs hk).1]
    exact List.mem_append_left _ hkv

/-- A run of inserts goes through and keeps every pair that was in the map. -/
theorem run_inserts_keep [DecidableEq K] [Inhabited V] (hash_ : K → Nat) :
    ∀ (xs : List (K × V)) (s : HashMap K V), WF hash_ s →
      ∃ s', run hash_ (xs.map Op.insert) s = some s' ∧ WF hash_ s' ∧
        ∀ kv ∈ s.toList, kv ∈ s'.toList := by
  intro xs
  induction xs with
  | nil => intro s hW; exact ⟨s, rfl, hW, fun _ h => h⟩
  | cons x xs ih =>
    intro s hW
    obtain ⟨s1, h1, hW1, _⟩ := insert_spec hW x
    obtain ⟨s', h', hW', hkeep⟩ := ih s1 hW1
    refine ⟨s', ?_, hW', fun kv hkv => hkeep kv (mem_toList_of_insert hW h1 hkv)⟩
    simp only [List.map_cons, run, step, h1]
    exact h'

/-- Under the invariant `find` designates every pair of the entry list. -/
theorem find_of_mem [DecidableEq K] {hash_ : K → Nat} {s : HashMap K V} (hI : MapInv hash_ s)
    {kv : K × V} (hkv : kv ∈ s.toList) :
    ∃ a, find hash_ s kv.1 = some (some a) ∧ deref s.elements a = some kv := by
  obtain ⟨r, hr, hiff, hd⟩ := find_spec hI kv.1
  cases r with
  | none => exact absurd rfl (hiff.mpr (List.mem_map_of_mem _ hkv))
  | some a =>
    obtain ⟨v, hv⟩ := hd a rfl
    have : v = kv.2 := value_unique hI.keys (deref_mem_toList hv) hkv
    subst this
    exact ⟨a, hr, hv⟩

/-! ### Positions modulo the capacity and uniqueness of slots -/

theorem add_mod_cases {c p i : Nat} (hp : p < c) (hi : i < c) :
    ((p + i) % c = p + i ∧ p + i < c) ∨ ((p + i) % c + c = p + i) := by
  by_cases h : p + i < c
  · exact Or.inl ⟨Nat.mod_eq_of_lt h, h⟩
  · right
    have h1 : (p + i) % c = (p + i - c) % c := Nat.mod_eq_sub_mod (by omega)
    have h2 : (p + i - c) % c = p + i - c := Nat.mod_eq_of_lt (by omega)
    omega

theorem next_id_eq_mod {c p : Nat} (hp : p < c) : next_id c p = (p + 1) % c := by
  unfold next_id
  split
  · next h => rw [h, Nat.mod_self]
  · next h => rw [Nat.mod_eq_of_lt (by omega)]

/-- Two occupied slots with the same address are the same slot when the occupied
addresses are pairwise distinct. -/
theorem occ_inj : ∀ (B : List node), (occ B).Nodup → ∀ (p q : Nat) (b b' : node),
    B[p]? = some b → B[q]? = some b' → b.waiting ≠ -1 → b'.waiting ≠ -1 →
    b.iter = b'.iter → p = q := by
  intro B
  induction B with
  | nil => intro _ p q b b' hb; simp at hb
  | cons x xs ih =>
    intro hnd p q b b' hb hb' hw hw' heq
    rw [occ_cons] at hnd
    have hnd2 : (occ xs).Nodup := (List.nodup_append.mp hnd).2.1
    cases p with
    | zero =>
      cases q with
      | zero => rfl
      | succ q' =>
        exfalso
        simp only [List.getElem?_cons_zero, Option.some.injEq] at hb
        simp only [List.getElem?_cons_succ] at hb'
        subst hb
        rw [occ_single_full hw] at hnd
        have := (List.nodup_cons.mp hnd).1
        apply this
        rw [heq]
        exact occ_mem hb' hw'
    | succ p' =>
      cases q with
      | zero =>
        exfalso
        simp only [List.getElem?_cons_zero, Option.some.injEq] at hb'
        simp only [List.getElem?_cons_succ] at hb
        subst hb'
        rw [occ_single_full hw'] at hnd
        have := (List.nodup_cons.mp hnd).1
        apply this
        rw [← heq]
        exact occ_mem hb hw
      | succ q' =>
        simp only [List.getElem?_cons_succ] at hb hb'
        rw [ih hnd2 p' q' b b' hb hb' hw hw' heq]

theorem MapInv.occ_nodup {hash_ : K → Nat} {s : HashMap K V} (h : MapInv hash_ s) :
    (occ s.buckets).Nodup :=
  h.perm.nodup_iff.mpr h.addrs

/-- Under the invariant the occupied slot whose entry has a given key is unique. -/
theorem slot_unique {hash_ : K → Nat} {s : HashMap K V} (hI : MapInv hash_ s)
    {p q : Nat} {b b' : node} {k : K} {v v' : V}
    (hb : s.buckets[p]? = some b) (hb' : s.buckets[q]? = some b')
    (hw : b.waiting ≠ -1) (hw' : b'.waiting ≠ -1)
    (hd : deref s.elements b.iter = some (k, v))
    (hd' : deref s.elements b'.iter = some (k, v')) : p = q := by
  have hm := deref_some_mem hd
  have hm' := deref_some_mem hd'
  have hk : (s.elements.map (fun x => x.2.1)).Nodup := by
    have := hI.keys
    simpa [HashMap.toList, List.map_map] using this
  have heq := List.inj_on_of_nodup_map hk hm hm' rfl
  have ha : b.iter = b'.iter := (Prod.mk.inj heq).1
  exact occ_inj s.buckets hI.occ_nodup p q b b' hb hb' hw hw' ha

theorem occ_length_eq (B : List node) :
    (occ B).length = (B.filter (fun b => decide (b.waiting ≠ -1))).length := by
  unfold occ
  rw [List.length_map]

/-! ### What the operations return, without the invariant -/

theorem insert__some {hash_ : K → Nat} {s s' : HashMap K V} {x : K × V}
    (h : insert_ hash_ s x = some s') :
    s'.capasity_ = s.capasity_ ∧
      s'.elements = s.elements ++ [(fresh_addr s.elements, x)] := by
  unfold insert_ at h
  split at h
  · cases h
  · simp only at h
    split at h
    · cases h
    · cases h
      exact ⟨rfl, rfl⟩

theorem insert_all_some (hash_ : K → Nat) :
    ∀ (xs : List (K × V)) (s s' : HashMap K V), insert_all hash_ xs s = some s' →
      s'.capasity_ = s.capasity_ ∧ s'.elements.length = s.elements.length + xs.length := by
  intro xs
  induction xs with
  | nil =>
    intro s s' h
    cases h
    exact ⟨rfl, rfl⟩
  | cons x rest ih =>
    intro s s' h
    simp only [insert_all] at h
    cases h1 : insert_ hash_ s x with
    | none => rw [h1] at h; cases h
    | some s1 =>
      rw [h1] at h
      obtain ⟨hc, hl⟩ := ih s1 s' h
      obtain ⟨hc1, he1⟩ := insert__some h1
      refine ⟨hc.trans hc1, ?_⟩
      rw [hl, he1]
      simp only [List.length_append, List.length_cons, List.length_nil]
      omega

/-- The two branches of `check_and_rehash`, read off a call that returned. -/
theorem check_and_rehash_some {hash_ : K → Nat} {s s' : HashMap K V}
    (h : check_and_rehash hash_ s = some s') :
    (s.elements.length < s.capasity_ ∧ s' = s) ∨
    (s.capasity_ ≤ s.elements.length ∧ 0 < s.capasity_ ∧
      s'.capasity_ = 5 * s.elements.length + 20 ∧
      s'.elements.length = s.elements.length) := by
  unfold check_and_rehash at h
  split at h
  · cases h
  · next hc =>
    simp only at h
    split at h
    · next hlt =>
      left
      cases h
      refine ⟨?_, rfl⟩
      by_contra hge
      have : 1 ≤ s.elements.length / s.capasity_ := by
        rw [Nat.le_div_iff_mul_le (by omega)]
        omega
      omega
    · next hge =>
      right
      obtain ⟨hc', hl'⟩ := insert_all_some hash_ _ _ _ h
      refine ⟨?_, by omega, hc', ?_⟩
      · by_contra hlt
        rw [Nat.div_eq_of_lt (by omega)] at hge
        omega
      · rw [hl']
        simp [HashMap.toList]

/-! ### The capacity along runs of operations -/

theorem run_append [DecidableEq K] [Inhabited V] (hash_ : K → Nat) :
    ∀ (a b : List (Op K V)) (s s1 : HashMap K V), run hash_ a s = some s1 →
      run hash_ (a ++ b) s = run hash_ b s1 := by
  intro a
  induction a with
  | nil =>
    intro b s s1 h
    cases h
    rfl
  | cons op ops ih =>
    intro b s s1 h
    simp only [run, List.cons_append] at h ⊢
    cases h1 : step hash_ s op with
    | none => rw [h1] at h; cases h
    | some s2 =>
      rw [h1] at h
      simp only at h ⊢
      exact ih b s2 s1 h

/-- A run of inserts of new keys that leaves room keeps the capacity. -/
theorem run_inserts_small [DecidableEq K] [Inhabited V] (hash_ : K → Nat) :
    ∀ (xs : List (K × V)) (s : HashMap K V), WF hash_ s →
      ((s.toList ++ xs).map Prod.fst).Nodup →
      s.elements.length + xs.length < s.capasity_ →
      ∃ s', run hash_ (xs.map Op.insert) s = some s' ∧ WF hash_ s' ∧
        s'.capasity_ = s.capasity_ ∧ s'.toList = s.toList ++ xs := by
  intro xs
  induction xs with
  | nil =>
    intro s hW _ _
    exact ⟨s, rfl, hW, rfl, by simp⟩
  | cons x rest ih =>
    intro s hW hnd hlen
    have hk : x.1 ∉ s.toList.map Prod.fst := by
      rw [List.map_append, List.map_cons, List.nodup_append] at hnd
      intro hmem
      exact hnd.2.2 hmem (List.mem_cons_self _ _)
    simp only [List.length_cons] at hlen
    obtain ⟨s1, h1, hW1, _, habs⟩ := insert_spec hW x
    obtain ⟨ht1, hc1⟩ := habs hk
    rw [if_neg (by omega)] at hc1
    have hl1 : s1.elements.length = s.elements.length + 1 := by
      rw [← toList_length, ht1, List.length_append, toList_length]
      rfl
    obtain ⟨s', h', hW', hc', ht'⟩ := ih s1 hW1
      (by rw [ht1, List.append_assoc]; exact hnd) (by omega)
    refine ⟨s', ?_, hW', hc'.trans hc1, ?_⟩
    · simp only [List.map_cons, run, step, h1]
      exact h'
    · rw [ht', ht1, List.append_assoc]
      rfl

/-- On a well-formed state no public operation other than `clear` lowers the
capacity. -/
theorem step_capacity [DecidableEq K] [Inhabited V] {hash_ : K → Nat} {s s' : HashMap K V}
    (hW : WF hash_ s) {op : Op K V} (hop : op ≠ Op.clear) (h : step hash_ s op = some s') :
    s.capasity_ ≤ s'.capasity_ := by
  have hins : ∀ (x : K × V) (t : HashMap K V), insert hash_ s x = some t →
      s.capasity_ ≤ t.capasity_ := by
    intro x t ht
    obtain ⟨t', ht', _, hpres, habs⟩ := insert_spec hW x
    rw [ht] at ht'
    cases ht'
    by_cases hk : x.1 ∈ s.toList.map Prod.fst
    · rw [hpres hk]
    · rw [(habs hk).2]
      split <;> omega
  have hidx : ∀ (k : K) (t : HashMap K V) (r : Nat), index hash_ s k = some (t, r) →
      s.capasity_ ≤ t.capasity_ := by
    intro k t r ht
    obtain ⟨t', r', ht', _, hpres, habs⟩ := index_spec hW k
    rw [ht] at ht'
    cases ht'
    by_cases hk : k ∈ s.toList.map Prod.fst
    · rw [(hpres hk).1]
    · rw [(habs hk).2.2]
      split <;> omega
  cases op with
  | insert x => exact hins x s' h
  | erase k =>
    obtain ⟨t', ht', _, _, _, hc⟩ := erase_spec hW k
    simp only [step] at h
    rw [h] at ht'
    cases ht'
    omega
  | index k =>
    simp only [step] at h
    cases hi : index hash_ s k with
    | none => rw [hi] at h; cases h
    | some tr =>
      rw [hi] at h
      cases h
      exact hidx k tr.1 tr.2 hi
  | assign k v =>
    simp only [step] at h
    cases hi : index hash_ s k with
    | none => rw [hi] at h; cases h
    | some tr =>
      rw [hi] at h
      cases h
      exact hidx k tr.1 tr.2 hi
  | rehash =>
    simp only [step] at h
    rw [check_and_rehash_small hash_ s hW.inv.cap_pos hW.size_lt] at h
    cases h
    exact le_refl _
  | clear => exact absurd rfl hop

/-- On a well-formed state `insert` with a present key, `operator[]` on a present key and
`check_and_rehash` return the state they were given. -/
theorem lookup_same_state [DecidableEq K] [Inhabited V] {hash_ : K → Nat}
    {s : HashMap K V} (hW : WF hash_ s) {k : K} (hk : k ∈ s.toList.map Prod.fst) (v : V) :
    insert hash_ s (k, v) = some s ∧ (∃ r, index hash_ s k = some (s, r)) ∧
      check_and_rehash hash_ s = some s := by
  refine ⟨?_, ?_, check_and_rehash_small hash_ s hW.inv.cap_pos hW.size_lt⟩
  · obtain ⟨s', h', _, hpres, _⟩ := insert_spec hW (k, v)
    rw [h', hpres hk]
  · obtain ⟨s', r, h', _, hpres, _⟩ := index_spec hW k
    refine ⟨r, ?_⟩
    rw [h', (hpres hk).1]

/-! ### The exact result of the backward shift -/

theorem pos_zero {c p : Nat} (hp : p < c) : (p + 0) % c = p := by
  rw [Nat.add_zero, Nat.mod_eq_of_lt hp]

theorem pos_next {c p : Nat} (hp : p < c) (i : Nat) :
    (next_id c p + i) % c = (p + (i + 1)) % c := by
  rw [next_id_eq_mod hp, Nat.mod_add_mod (p + 1) c i]
  congr 1
  omega

theorem pos_inj {c p i j : Nat} (hp : p < c) (hi : i < c) (hj : j < c)
    (h : (p + i) % c = (p + j) % c) : i = j := by
  rcases add_mod_cases hp hi with ⟨h1, _⟩ | h1 <;>
    rcases add_mod_cases hp hj with ⟨h2, _⟩ | h2 <;> omega

theorem pos_lt {c : Nat} (hc : 0 < c) (p i : Nat) : (p + i) % c < c := Nat.mod_lt _ hc

theorem get_shift_cur {B : List node} {cur next : Nat} (bn bc x : node)
    (h : cur < B.length) :
    (((B.set cur bn).set next bc).set cur x)[cur]? = some x := by
  rw [List.getElem?_set_self]
  rw [List.length_set, List.length_set]
  exact h

/-- The backward shift moves the run of slots with a positive stored distance that
follows the freed slot one slot back, each with its distance decreased by one, leaves
the content of the freed slot behind the run and changes no other slot. -/
theorem erase_shift_exact (c : Nat) :
    ∀ (r fuel : Nat) (B : List node) (cur : Nat) (bc : node),
      B.length = c → cur < c → r + 2 ≤ c → r < fuel → B[cur]? = some bc →
      (∀ (i : Nat), 1 ≤ i → i ≤ r →
        ∃ bi, B[(cur + i) % c]? = some bi ∧ 0 < bi.waiting) →
      (∃ bn, B[(cur + (r + 1)) % c]? = some bn ∧ bn.waiting ≤ 0) →
      ∃ B', erase_shift c fuel B cur (next_id c cur) = some B' ∧ B'.length = c ∧
        (∀ (i : Nat), 1 ≤ i → i ≤ r → ∃ bi, B[(cur + i) % c]? = some bi ∧
          B'[(cur + (i - 1)) % c]? = some ⟨bi.iter, bi.waiting - 1⟩) ∧
        B'[(cur + r) % c]? = some bc ∧
        (∀ (q : Nat), (∀ (i : Nat), i ≤ r → q ≠ (cur + i) % c) → B'[q]? = B[q]?) := by
  intro r
  induction r with
  | zero =>
    intro fuel B cur bc hlen hcur _ hfuel hbc _ hstop
    obtain ⟨bn, hbn, hbnw⟩ := hstop
    obtain ⟨f, rfl⟩ : ∃ f, fuel = f + 1 := ⟨fuel - 1, by omega⟩
    have hn : next_id c cur = (cur + (0 + 1)) % c := next_id_eq_mod hcur
    refine ⟨B, ?_, hlen, ?_, ?_, fun _ _ => rfl⟩
    · simp only [erase_shift, hn, hbn]
      rw [if_neg (by omega)]
    · intro i h1 h2
      omega
    · rw [pos_zero hcur]
      exact hbc
  | succ r ih =>
    intro fuel B cur bc hlen hcur hrc hfuel hbc hrun hstop
    obtain ⟨f, rfl⟩ : ∃ f, fuel = f + 1 := ⟨fuel - 1, by omega⟩
    have hc0 : 0 < c := by omega
    have hn : next_id c cur = (cur + 1) % c := next_id_eq_mod hcur
    have hnlt : next_id c cur < c := next_id_lt hcur
    have hnne : next_id c cur ≠ cur := next_id_ne (by omega)
    have hcurlen : cur < B.length := by rw [hlen]; exact hcur
    have hnlen : next_id c cur < B.length := by rw [hlen]; exact hnlt
    obtain ⟨b1, hb1, hb1w⟩ := hrun 1 (le_refl _) (by omega)
    rw [← hn] at hb1
    -- positions behind the first slot of the run are neither `cur` nor its successor
    have hfar : ∀ (d : Nat), 2 ≤ d → d < c →
        (cur + d) % c ≠ cur ∧ (cur + d) % c ≠ next_id c cur := by
      intro d hd hdc
      constructor
      · intro heq
        have := pos_inj hcur hdc hc0 (heq.trans (pos_zero hcur).symm)
        omega
      · intro heq
        rw [hn] at heq
        have := pos_inj hcur hdc (by omega) heq
        omega
    obtain ⟨B', hrun', hlen', hA, hB, hC⟩ := ih f
      (((B.set cur b1).set (next_id c cur) bc).set cur ⟨b1.iter, b1.waiting - 1⟩)
      (next_id c cur) bc (by simp [hlen]) hnlt (by omega) (by omega)
      (get_shift_next _ _ _ hnne hnlen)
      (by
        intro i h1 h2
        obtain ⟨bi, hbi, hbiw⟩ := hrun (i + 1) (by omega) (by omega)
        obtain ⟨hf1, hf2⟩ := hfar (i + 1) (by omega) (by omega)
        refine ⟨bi, ?_, hbiw⟩
        rw [pos_next hcur, get_shift_other _ _ _ hf1 hf2]
        exact hbi)
      (by
        obtain ⟨bn, hbn, hbnw⟩ := hstop
        obtain ⟨hf1, hf2⟩ := hfar (r + 1 + 1) (by omega) (by omega)
        refine ⟨bn, ?_, hbnw⟩
        rw [pos_next hcur, get_shift_other _ _ _ hf1 hf2]
        exact hbn)
    refine ⟨B', ?_, hlen', ?_, ?_, ?_⟩
    · simp only [erase_shift, hb1, hbc]
      rw [if_pos hb1w]
      exact hrun'
    · intro i h1 h2
      by_cases hi1 : i = 1
      · subst hi1
        refine ⟨b1, by rw [← hn]; exact hb1, ?_⟩
        have hq : ∀ (i : Nat), i ≤ r → cur ≠ (next_id c cur + i) % c := by
          intro i hi heq
          rw [pos_next hcur] at heq
          have := pos_inj hcur hc0 (by omega : i + 1 < c) ((pos_zero hcur).trans heq)
          omega
        have := hC cur hq
        rw [get_shift_cur _ _ _ hcurlen] at this
        simp only [Nat.sub_self]
        rw [pos_zero hcur]
        exact this
      · obtain ⟨bi, hbi, hbi'⟩ := hA (i - 1) (by omega) (by omega)
        obtain ⟨hf1, hf2⟩ := hfar i (by omega) (by omega)
        rw [pos_next hcur, get_shift_other _ _ _
          (by rw [show i - 1 + 1 = i by omega]; exact hf1)
          (by rw [show i - 1 + 1 = i by omega]; exact hf2)] at hbi
        rw [pos_next hcur] at hbi'
        rw [show i - 1 + 1 = i by omega] at hbi
        rw [show i - 1 - 1 + 1 = i - 1 by omega] at hbi'
        exact ⟨bi, hbi, hbi'⟩
    · rw [pos_next hcur] at hB
      exact hB
    · intro q hq
      have hq' : ∀ (i : Nat), i ≤ r → q ≠ (next_id c cur + i) % c := by
        intro i hi
        rw [pos_next hcur]
        exact hq (i + 1) (by omega)
      rw [hC q hq']
      have h0 := hq 0 (by omega)
      rw [pos_zero hcur] at h0
      have h1 := hq 1 (by omega)
      rw [← hn] at h1
      exact get_shift_other _ _ _ h0 h1

/-- Behind a slot `p` of a probe index with an empty slot elsewhere, the run of slots
with a positive stored distance has an end. -/
theorem exists_run {c : Nat} {B : List node} (hlen : B.length = c) {p e : Nat}
    (hp : p < c) (he : e < c) (hne : e ≠ p) {be : node} (hbe : B[e]? = some be)
    (hwe : be.waiting ≤ 0) :
    ∃ r, r + 2 ≤ c ∧
      (∀ (i : Nat), 1 ≤ i → i ≤ r →
        ∃ bi, B[(p + i) % c]? = some bi ∧ 0 < bi.waiting) ∧
      ∃ bn, B[(p + (r + 1)) % c]? = some bn ∧ bn.waiting ≤ 0 := by
  classical
  have hc0 : 0 < c := by omega
  have hex : ∃ n, n + 2 ≤ c ∧
      ∃ bn, B[(p + (n + 1)) % c]? = some bn ∧ bn.waiting ≤ 0 := by
    by_cases hlt : p < e
    · refine ⟨e - p - 1, by omega, be, ?_, hwe⟩
      rw [show p + (e - p - 1 + 1) = e by omega, Nat.mod_eq_of_lt he]
      exact hbe
    · refine ⟨e + c - p - 1, by omega, be, ?_, hwe⟩
      rw [show p + (e + c - p - 1 + 1) = e + c by omega, Nat.add_mod_right,
        Nat.mod_eq_of_lt he]
      exact hbe
  refine ⟨Nat.find hex, (Nat.find_spec hex).1, ?_, (Nat.find_spec hex).2⟩
  intro i h1 h2
  have hmin := Nat.find_min hex (show i - 1 < Nat.find hex by omega)
  have hb := (Nat.find_spec hex).1
  obtain ⟨bi, hbi⟩ := get_of_lt (show (p + i) % c < B.length by
    rw [hlen]; exact Nat.mod_lt _ hc0)
  refine ⟨bi, hbi, ?_⟩
  by_contra hle
  apply hmin
  refine ⟨by omega, bi, ?_, by omega⟩
  rw [show i - 1 + 1 = i by omega]
  exact hbi

/-- The method `erase` on a present key of a well-formed state, slot by slot. -/
theorem erase_present_exact [DecidableEq K] {hash_ : K → Nat} {s : HashMap K V}
    (hW : WF hash_ s) {k : K} (hk : k ∈ s.toList.map Prod.fst) :
    ∃ (p r : Nat) (b : node) (v : V) (B' : List node),
      receive_pos_ hash_ s k = some (some p) ∧ s.buckets[p]? = some b ∧
      b.waiting ≠ -1 ∧ deref s.elements b.iter = some (k, v) ∧
      erase hash_ s k = some
        { capasity_ := s.capasity_,
          elements := s.elements.filter (fun e => decide (e.1 ≠ b.iter)),
          buckets := B' } ∧
      r + 2 ≤ s.capasity_ ∧
      (∀ (i : Nat), 1 ≤ i → i ≤ r →
        ∃ bi, s.buckets[(p + i) % s.capasity_]? = some bi ∧ 0 < bi.waiting ∧
          B'[(p + (i - 1)) % s.capasity_]? = some ⟨bi.iter, bi.waiting - 1⟩) ∧
      (∃ bn, s.buckets[(p + (r + 1)) % s.capasity_]? = some bn ∧ bn.waiting ≤ 0) ∧
      B'[(p + r) % s.capasity_]? = some ⟨b.iter, -1⟩ ∧
      (∀ (q : Nat), (∀ (i : Nat), i ≤ r → q ≠ (p + i) % s.capasity_) →
        B'[q]? = s.buckets[q]?) := by
  have hI := hW.inv
  have hc := hI.cap_pos
  have hlen := hI.slots.len
  have hhome := Nat.mod_lt (hash_ k) hc
  obtain ⟨r0, hr, hiff, hs⟩ := receive_pos__spec hI k
  cases r0 with
  | none => exact absurd rfl (hiff.mpr hk)
  | some p =>
    obtain ⟨b, v, hb, hw, hd⟩ := hs p rfl
    rcases hI.slots.dist p b hb hw with ⟨e, he, hb0, hbc, hpos⟩
    rw [hd] at he
    cases he
    have hp : p < s.capasity_ := by
      have := get_lt hb
      rw [hlen] at this
      exact this
    have hplen : p < s.buckets.length := get_lt hb
    obtain ⟨q, bq, vq, hfind, hbq, hbqw, hdq⟩ := erase_find_spec hI.slots hI.rh hb hbc hd rfl
      s.capasity_ (hash_ k % s.capasity_) b.waiting.toNat hhome (by omega)
      (by simp only at hpos; omega) (by omega)
    have hqp : q = p := slot_unique hI hbq hb hbqw hw hdq hd
    subst hqp
    rw [hb] at hbq
    cases hbq
    -- an empty slot other than the one of the key
    have hex : ∃ (pe : Nat) (be : node), s.buckets[pe]? = some be ∧ be.waiting = -1 := by
      apply exists_empty
      rw [hI.occ_length, hlen]
      exact hW.size_lt
    rcases hex with ⟨pe, be, hbe, hwe⟩
    have hpe : pe < s.capasity_ := by
      have := get_lt hbe
      rw [hlen] at this
      exact this
    have hpeq : pe ≠ q := by
      intro h
      subst h
      rw [hb] at hbe
      cases hbe
      exact hw hwe
    obtain ⟨r, hr2, hrun, hstop⟩ := exists_run hlen hp hpe hpeq hbe (by omega)
    -- the slots of the run are not the slot of the key
    have hoff : ∀ (i : Nat), 1 ≤ i → i ≤ r + 1 → (q + i) % s.capasity_ ≠ q := by
      intro i h1 h2 heq
      have := pos_inj hp (by omega : i < s.capasity_) hc (heq.trans (pos_zero hp).symm)
      omega
    obtain ⟨B', hshift, _, hA, hB, hC⟩ := erase_shift_exact s.capasity_ r s.capasity_
      (s.buckets.set q ⟨b.iter, -1⟩) q ⟨b.iter, -1⟩
      (by rw [List.length_set]; exact hlen) hp hr2 (by omega)
      (List.getElem?_set_self hplen)
      (by
        intro i h1 h2
        obtain ⟨bi, hbi, hbiw⟩ := hrun i h1 h2
        refine ⟨bi, ?_, hbiw⟩
        rw [List.getElem?_set_ne (fun e => hoff i h1 (by omega) e.symm)]
        exact hbi)
      (by
        obtain ⟨bn, hbn, hbnw⟩ := hstop
        refine ⟨bn, ?_, hbnw⟩
        rw [List.getElem?_set_ne (fun e => hoff (r + 1) (by omega) (le_refl _) e.symm)]
        exact hbn)
    refine ⟨q, r, b, v, B', hr, hb, hw, hd, ?_, hr2, ?_, hstop, hB, ?_⟩
    · simp only [erase, hr, erase_]
      rw [if_neg (by omega)]
      simp only [hfind, hb, hshift]
    · intro i h1 h2
      obtain ⟨bi, hbi, hbi'⟩ := hA i h1 h2
      obtain ⟨bi2, hbi2, hbiw⟩ := hrun i h1 h2
      rw [List.getElem?_set_ne (fun e => hoff i h1 (by omega) e.symm), hbi2] at hbi
      have hEq : bi2 = bi := Option.some.inj hbi
      rw [← hEq] at hbi'
      exact ⟨bi2, hbi2, hbiw, hbi'⟩
    · intro x hx
      rw [hC x hx]
      have h0 := hx 0 (by omega)
      rw [pos_zero hp] at h0
      rw [List.getElem?_set_ne (fun e => h0 e.symm)]

/-! ### The example states -/

theorem demo_state_reachable : Reachable id_hash demo_state := ⟨demo_ops, rfl⟩

set_option maxRecDepth 100000 in
theorem nineteen_state_reachable : Reachable id_hash nineteen_state := ⟨nineteen_ops, by rfl⟩

theorem full_table_inv : MapInv id_hash full_table := by
  have hW : WF id_hash nineteen_state := nineteen_state_reachable.wf
  obtain ⟨s', hrun, hI, _⟩ := insert__spec hW.inv hW.size_lt (19, 19) (by decide)
  have h : insert_ id_hash nineteen_state (19, 19) = some full_table := by rfl
  rw [h] at hrun
  cases hrun
  exact hI

theorem cluster_state_reachable : Reachable id_hash cluster_state := ⟨cluster_ops, rfl⟩

theorem wrap_state_reachable : Reachable id_hash wrap_state := ⟨wrap_ops, rfl⟩

end Lemmas

/-! ## The claims -/

section Claims

variable {K V : Type}

/-- C1: in every reachable state `find k` returns, it returns an iterator other than
`end()` exactly when `k` is the key of an entry yielded by iteration, and the iterator
designates the entry with key `k`, the only one, hence its current value. -/
theorem C1_find_iff_iterated [DecidableEq K] [Inhabited V] (hash_ : K → Nat)
    (s : HashMap K V) (h : Reachable hash_ s) (k : K) :
    ∃ r, find hash_ s k = some r ∧
      (r ≠ none ↔ ∃ e ∈ s.toList, e.1 = k) ∧
      ∀ (a : Nat), r = some a → ∃ v, deref s.elements a = some (k, v) ∧
        (k, v) ∈ s.toList ∧
        ∀ (v' : V), (k, v') ∈ s.toList → v' = v := by
  have hW := h.wf
  obtain ⟨r, hr, hiff, hd⟩ := find_spec hW.inv k
  refine ⟨r, hr, ?_, ?_⟩
  · rw [hiff, List.mem_map]
  · intro a ha
    obtain ⟨v, hv⟩ := hd a ha
    exact ⟨v, hv, deref_mem_toList hv,
      fun v' hv' => value_unique hW.inv.keys hv' (deref_mem_toList hv)⟩

/-- Witness of C1 on the state after a collision, an assignment and a backward shift,
for the present key 2. -/
theorem C1_find_iff_iterated_witness :
    Reachable id_hash demo_state ∧
    ∃ r, find id_hash demo_state 2 = some r ∧
      (r ≠ none ↔ ∃ e ∈ demo_state.toList, e.1 = 2) ∧
      ∀ (a : Nat), r = some a → ∃ v, deref demo_state.elements a = some (2, v) ∧
        (2, v) ∈ demo_state.toList ∧
        ∀ (v' : Nat), (2, v') ∈ demo_state.toList → v' = v :=
  ⟨demo_state_reachable, C1_find_iff_iterated id_hash demo_state demo_state_reachable 2⟩

/-- C2: on a reachable map, inserting an absent key `k` with value `v` goes through and
`find k` then designates the pair `(k, v)`; the following `erase k` goes through and
`find k` then returns `end()`. -/
theorem C2_insert_find_erase [DecidableEq K] [Inhabited V] (hash_ : K → Nat)
    (s : HashMap K V) (h : Reachable hash_ s) (k : K) (v : V)
    (hk : k ∉ s.toList.map Prod.fst) :
    ∃ s1 a, insert hash_ s (k, v) = some s1 ∧ find hash_ s1 k = some (some a) ∧
      deref s1.elements a = some (k, v) ∧
      ∃ s2, erase hash_ s1 k = some s2 ∧ find hash_ s2 k = some none := by
  have hW := h.wf
  obtain ⟨s1, h1, hW1, _, habs⟩ := insert_spec hW (k, v)
  have ht1 := (habs hk).1
  have hmem1 : (k, v) ∈ s1.toList := by rw [ht1]; simp
  obtain ⟨r, hr, hiff, hd⟩ := find_spec hW1.inv k
  cases r with
  | none => exact absurd rfl (hiff.mpr (List.mem_map_of_mem _ hmem1))
  | some a =>
    obtain ⟨v', hv'⟩ := hd a rfl
    have hvv : v' = v := value_unique hW1.inv.keys (deref_mem_toList hv') hmem1
    subst hvv
    obtain ⟨s2, h2, hW2, _, ht2, _⟩ := erase_spec hW1 k
    obtain ⟨r2, hr2, hiff2, _⟩ := find_spec hW2.inv k
    refine ⟨s1, a, h1, hr, hv', s2, h2, ?_⟩
    cases r2 with
    | none => exact hr2
    | some a2 =>
      have hm : k ∈ s2.toList.map Prod.fst := hiff2.mp (by simp)
      rw [ht2] at hm
      rcases List.mem_map.mp hm with ⟨kv, hkv, hkk⟩
      rw [List.mem_filter] at hkv
      have := hkv.2
      simp only [ne_eq, decide_not, Bool.not_eq_eq_eq_not, Bool.not_true,
        decide_eq_false_iff_not] at this
      exact absurd hkk this

/-- Witness of C2 on the same state, for the absent key 21 whose home slot is
occupied. -/
theorem C2_insert_find_erase_witness :
    Reachable id_hash demo_state ∧ 21 ∉ demo_state.toList.map Prod.fst ∧
    ∃ s1 a, insert id_hash demo_state (21, 5) = some s1 ∧
      find id_hash s1 21 = some (some a) ∧ deref s1.elements a = some (21, 5) ∧
      ∃ s2, erase id_hash s1 21 = some s2 ∧ find id_hash s2 21 = some none :=
  ⟨demo_state_reachable, by decide,
    C2_insert_find_erase id_hash demo_state demo_state_reachable 21 5 (by decide)⟩

/-- C3: any sequence of `insert` and `erase` applied to an empty map goes through, and
iterating the result yields the list obtained by running the same operations on a plain
list of pairs; pairs with distinct keys inserted one after the other are iterated in the
order of insertion. -/
theorem C3_iteration_refines_assoc_list [DecidableEq K] [Inhabited V] (hash_ : K → Nat)
    (ops : List (MapOp K V)) (xs : List (K × V)) (hxs : (xs.map Prod.fst).Nodup) :
    (∃ s, run hash_ (ops.map MapOp.toOp) HashMap.init = some s ∧
      s.toList = assoc_run ops []) ∧
    (∃ s, run hash_ ((xs.map MapOp.insert).map MapOp.toOp) HashMap.init = some s ∧
      s.toList = xs) := by
  constructor
  · obtain ⟨s, hs, _, ht⟩ := run_refines hash_ ops HashMap.init (init_spec hash_)
    exact ⟨s, hs, ht⟩
  · obtain ⟨s, hs, _, ht⟩ := run_refines hash_ (xs.map MapOp.insert)
      HashMap.init (init_spec hash_)
    refine ⟨s, hs, ?_⟩
    rw [ht]
    have := assoc_run_inserts xs ([] : List (K × V)) (by simpa using hxs)
    simpa [HashMap.toList, HashMap.init] using this

/-- Witness of C3 for a sequence with a repeated insert and an erase, and for three
pairs with distinct keys. -/
theorem C3_iteration_refines_assoc_list_witness :
    (([(3, 1), (1, 2), (2, 3)] : List (Nat × Nat)).map Prod.fst).Nodup ∧
    (∃ s : HashMap Nat Nat,
      run id_hash (([MapOp.insert (1, 10), MapOp.insert (21, 5), MapOp.erase 1,
        MapOp.insert (1, 3), MapOp.insert (21, 6)] : List (MapOp Nat Nat)).map MapOp.toOp)
        HashMap.init = some s ∧
      s.toList = assoc_run [MapOp.insert (1, 10), MapOp.insert (21, 5), MapOp.erase 1,
        MapOp.insert (1, 3), MapOp.insert (21, 6)] []) ∧
    (∃ s : HashMap Nat Nat,
      run id_hash ((([(3, 1), (1, 2), (2, 3)] : List (Nat × Nat)).map MapOp.insert).map
        MapOp.toOp) HashMap.init = some s ∧
      s.toList = [(3, 1), (1, 2), (2, 3)]) :=
  ⟨by decide, C3_iteration_refines_assoc_list id_hash _ [(3, 1), (1, 2), (2, 3)] (by decide)⟩

/-- C4, the code on eleven inserts: with the identity hash, inserting the eleven
keys 0, ..., 10 into a freshly constructed map gives a state of size 11 whose capacity
is still 20, not 5 * 11 + 20, although 2 * size >= capacity; `check_and_rehash` returns
that state as it is; all eleven keys are found. -/
theorem C4_eleven_inserts_keep_capacity_20 :
    run id_hash eleven_ops HashMap.init = some eleven_state ∧
    eleven_state.size = 11 ∧ 2 * eleven_state.size ≥ eleven_state.capasity_ ∧
    eleven_state.capasity_ = 20 ∧ eleven_state.capasity_ ≠ 5 * eleven_state.size + 20 ∧
    check_and_rehash id_hash eleven_state = some eleven_state ∧
    ∀ k ∈ List.range 11, find id_hash eleven_state k = some (some (k + 1)) := by
  refine ⟨by rfl, by rfl, by decide, by rfl, by decide, by rfl, by decide⟩

/-- C5: on a reachable map, `insert` with a key that is present returns the state it
was given (entry list, probe index and capacity); after the insert of an absent key
with value `v1`, an insert of the same key with `v2` changes nothing and `at` still
returns `v1`. -/
theorem C5_insert_present_is_noop [DecidableEq K] [Inhabited V] (hash_ : K → Nat)
    (s : HashMap K V) (h : Reachable hash_ s) (k : K) (v1 v2 : V) :
    (k ∈ s.toList.map Prod.fst → insert hash_ s (k, v2) = some s) ∧
    (k ∉ s.toList.map Prod.fst → ∃ s1, insert hash_ s (k, v1) = some s1 ∧
      insert hash_ s1 (k, v2) = some s1 ∧ at_ hash_ s1 k = some (AtResult.value v1)) := by
  have hW := h.wf
  constructor
  · intro hk
    obtain ⟨s', h', _, hpres, _⟩ := insert_spec hW (k, v2)
    rw [h', hpres hk]
  · intro hk
    obtain ⟨s1, h1, hW1, _, habs⟩ := insert_spec hW (k, v1)
    have hmem1 : (k, v1) ∈ s1.toList := by rw [(habs hk).1]; simp
    obtain ⟨s2, h2, _, hpres2, _⟩ := insert_spec hW1 (k, v2)
    have hk1 : k ∈ s1.toList.map Prod.fst := List.mem_map.mpr ⟨(k, v1), hmem1, rfl⟩
    have : s2 = s1 := hpres2 hk1
    subst this
    refine ⟨s2, h1, h2, ?_⟩
    obtain ⟨res, hres, hiff, hval⟩ := at_spec hW1.inv k
    cases res with
    | out_of_range => exact absurd hk1 (hiff.mp rfl)
    | value v =>
      have := value_unique hW1.inv.keys (hval v rfl).1 hmem1
      rw [hres, this]

/-- Witness of C5 for the present key 2 and for the absent key 5. -/
theorem C5_insert_present_is_noop_witness :
    Reachable id_hash demo_state ∧
    (2 ∈ demo_state.toList.map Prod.fst ∧
      insert id_hash demo_state (2, 9) = some demo_state) ∧
    (5 ∉ demo_state.toList.map Prod.fst ∧
      ∃ s1, insert id_hash demo_state (5, 8) = some s1 ∧
        insert id_hash s1 (5, 9) = some s1 ∧ at_ id_hash s1 5 = some (AtResult.value 8)) :=
  ⟨demo_state_reachable,
    ⟨by decide, (C5_insert_present_is_noop id_hash demo_state demo_state_reachable 2 8 9).1
      (by decide)⟩,
    ⟨by decide, (C5_insert_present_is_noop id_hash demo_state demo_state_reachable 5 8 9).2
      (by decide)⟩⟩

/-- C6: on a reachable map, `erase` with an absent key returns the state it was given
(size, entry list, probe index and capacity); for every key a second `erase` right after
the first changes nothing. -/
theorem C6_erase_absent_is_noop [DecidableEq K] [Inhabited V] (hash_ : K → Nat)
    (s : HashMap K V) (h : Reachable hash_ s) (k : K) :
    (k ∉ s.toList.map Prod.fst → erase hash_ s k = some s) ∧
    ∃ s1, erase hash_ s k = some s1 ∧ erase hash_ s1 k = some s1 := by
  have hW := h.wf
  obtain ⟨s1, h1, hW1, habs, ht1, _⟩ := erase_spec hW k
  constructor
  · intro hk
    rw [h1, habs hk]
  · refine ⟨s1, h1, ?_⟩
    obtain ⟨s2, h2, _, habs2, _⟩ := erase_spec hW1 k
    have hk1 : k ∉ s1.toList.map Prod.fst := by
      rw [ht1]
      intro hm
      rcases List.mem_map.mp hm with ⟨kv, hkv, hkk⟩
      rw [List.mem_filter] at hkv
      have := hkv.2
      simp only [ne_eq, decide_not, Bool.not_eq_eq_eq_not, Bool.not_true,
        decide_eq_false_iff_not] at this
      exact this hkk
    rw [h2, habs2 hk1]

/-- Witness of C6 for the absent key 21 and for the present key 2. -/
theorem C6_erase_absent_is_noop_witness :
    Reachable id_hash demo_state ∧
    (21 ∉ demo_state.toList.map Prod.fst ∧ erase id_hash demo_state 21 = some demo_state) ∧
    (∃ s1, erase id_hash demo_state 2 = some s1 ∧ erase id_hash s1 2 = some s1) :=
  ⟨demo_state_reachable,
    ⟨by decide, (C6_erase_absent_is_noop id_hash demo_state demo_state_reachable 21).1
      (by decide)⟩,
    (C6_erase_absent_is_noop id_hash demo_state demo_state_reachable 2).2⟩

/-- C7: when `check_and_rehash` takes its rehash branch on a table with the container
invariant, it goes through, the capacity becomes 5 * size + 20, iteration yields the same
pairs in the same order, and `find` designates every one of them in the rebuilt probe
index; and any run of inserts on a reachable map, whatever rehashes it triggers, keeps
every pair of the map in the entry list and found by `find`. -/
theorem C7_rehash_transparent [DecidableEq K] [Inhabited V] (hash_ : K → Nat)
    (s : HashMap K V) (hI : MapInv hash_ s)
    (hbranch : ¬ 2 * (s.elements.length / s.capasity_) < 1)
    (t : HashMap K V) (ht : Reachable hash_ t) (xs : List (K × V)) :
    (∃ s', check_and_rehash hash_ s = some s' ∧ s'.capasity_ = 5 * s.size + 20 ∧
      s'.toList = s.toList ∧
      ∀ kv ∈ s.toList, ∃ a, find hash_ s' kv.1 = some (some a) ∧
        deref s'.elements a = some kv) ∧
    (∃ t', run hash_ (xs.map Op.insert) t = some t' ∧
      ∀ kv ∈ t.toList, kv ∈ t'.toList ∧
        ∃ a, find hash_ t' kv.1 = some (some a) ∧ deref t'.elements a = some kv) := by
  constructor
  · have hfull : s.capasity_ ≤ s.elements.length := by
      by_contra hlt
      rw [Nat.div_eq_of_lt (by omega)] at hbranch
      omega
    obtain ⟨s', hrun, hI', hc', ht'⟩ := check_and_rehash_full hash_ s hI.cap_pos hfull hI.keys
    refine ⟨s', hrun, hc', ht', ?_⟩
    intro kv hkv
    rw [← ht'] at hkv
    exact find_of_mem hI' hkv
  · obtain ⟨t', hrun, hW', hkeep⟩ := run_inserts_keep hash_ xs t ht.wf
    exact ⟨t', hrun, fun kv hkv => ⟨hkeep kv hkv, find_of_mem hW'.inv (hkeep kv hkv)⟩⟩

/-- Witness of C7 on the full table of 20 entries that `insert_` leaves right before
the rehash, and for a run of 130 inserts of new keys. -/
theorem C7_rehash_transparent_witness :
    MapInv id_hash full_table ∧
    ¬ 2 * (full_table.elements.length / full_table.capasity_) < 1 ∧
    Reachable id_hash demo_state ∧
    (∃ s', check_and_rehash id_hash full_table = some s' ∧
      s'.capasity_ = 5 * full_table.size + 20 ∧ s'.toList = full_table.toList ∧
      ∀ kv ∈ full_table.toList, ∃ a, find id_hash s' kv.1 = some (some a) ∧
        deref s'.elements a = some kv) ∧
    (∃ t', run id_hash (((List.range 130).map (fun i => (i + 100, i))).map Op.insert)
        demo_state = some t' ∧
      ∀ kv ∈ demo_state.toList, kv ∈ t'.toList ∧
        ∃ a, find id_hash t' kv.1 = some (some a) ∧ deref t'.elements a = some kv) :=
  ⟨full_table_inv, by decide, demo_state_reachable,
    C7_rehash_transparent id_hash full_table full_table_inv (by decide) demo_state
      demo_state_reachable ((List.range 130).map (fun i => (i + 100, i)))⟩

/-- C8: on a reachable map `at k` returns; it raises `out_of_range` exactly when `k` is
not the key of an entry, and otherwise returns the value of the entry with key `k`, the
one that the iterator of `find k` designates. The method is `const`: it yields no new
state. -/
theorem C8_at_out_of_range_iff_absent [DecidableEq K] [Inhabited V] (hash_ : K → Nat)
    (s : HashMap K V) (h : Reachable hash_ s) (k : K) :
    ∃ res, at_ hash_ s k = some res ∧
      (res = AtResult.out_of_range ↔ k ∉ s.toList.map Prod.fst) ∧
      ∀ (v : V), res = AtResult.value v →
        (k, v) ∈ s.toList ∧
        ∃ a, find hash_ s k = some (some a) ∧ deref s.elements a = some (k, v) :=
  at_spec h.wf.inv k

/-- Witness of C8 for the present key 2. -/
theorem C8_at_out_of_range_iff_absent_witness :
    Reachable id_hash demo_state ∧
    ∃ res, at_ id_hash demo_state 2 = some res ∧
      (res = AtResult.out_of_range ↔ 2 ∉ demo_state.toList.map Prod.fst) ∧
      ∀ (v : Nat), res = AtResult.value v →
        (2, v) ∈ demo_state.toList ∧
        ∃ a, find id_hash demo_state 2 = some (some a) ∧
          deref demo_state.elements a = some (2, v) :=
  ⟨demo_state_reachable,
    C8_at_out_of_range_iff_absent id_hash demo_state demo_state_reachable 2⟩

/-- C9: on a reachable map `operator[]` goes through for every key. For a present key the
state is the one it was given and the reference designates the value of the entry with
that key; for an absent key the pair of the key and the default value is appended to the
entry list and the reference designates the value of that new entry, with the capacity
5 * size + 20 when the insertion fills the table and triggers the rehash. -/
theorem C9_index_total [DecidableEq K] [Inhabited V] (hash_ : K → Nat)
    (s : HashMap K V) (h : Reachable hash_ s) (k : K) :
    ∃ s' r, index hash_ s k = some (s', r) ∧
      (k ∈ s.toList.map Prod.fst →
        s' = s ∧ ∃ v, deref s'.elements r = some (k, v) ∧ (k, v) ∈ s.toList) ∧
      (k ∉ s.toList.map Prod.fst →
        s'.toList = s.toList ++ [(k, default)] ∧
        deref s'.elements r = some (k, default) ∧
        s'.capasity_ = if s.size + 1 = s.capasity_ then 5 * (s.size + 1) + 20
          else s.capasity_) := by
  obtain ⟨s', r, hrun, _, hpres, habs⟩ := index_spec h.wf k
  refine ⟨s', r, hrun, ?_, habs⟩
  intro hk
  obtain ⟨hs, v, hv⟩ := hpres hk
  subst hs
  exact ⟨rfl, v, hv, deref_mem_toList hv⟩

/-- Witness of C9 on the map of 19 entries, for the absent key 19 whose insertion fills
the table and triggers the rehash. -/
theorem C9_index_total_witness :
    Reachable id_hash nineteen_state ∧
    ∃ s' r, index id_hash nineteen_state 19 = some (s', r) ∧
      (19 ∈ nineteen_state.toList.map Prod.fst →
        s' = nineteen_state ∧
          ∃ v, deref s'.elements r = some (19, v) ∧ (19, v) ∈ nineteen_state.toList) ∧
      (19 ∉ nineteen_state.toList.map Prod.fst →
        s'.toList = nineteen_state.toList ++ [(19, default)] ∧
        deref s'.elements r = some (19, default) ∧
        s'.capasity_ = if nineteen_state.size + 1 = nineteen_state.capasity_
          then 5 * (nineteen_state.size + 1) + 20 else nineteen_state.capasity_) :=
  ⟨nineteen_state_reachable,
    C9_index_total id_hash nineteen_state nineteen_state_reachable 19⟩

/-- C10: `clear` applied to any map yields the state of a freshly constructed map:
capacity 20, an empty entry list, so size 0 and `empty()` true, and 20 empty slots;
afterwards `find` returns `end()` for every key. -/
theorem C10_clear_is_fresh [DecidableEq K] (hash_ : K → Nat) (s : HashMap K V) :
    clear s = HashMap.init ∧ (clear s).capasity_ = 20 ∧ (clear s).toList = [] ∧
      (clear s).size = 0 ∧ (clear s).empty = true ∧
      (clear s).buckets.length = 20 ∧ (∀ b ∈ (clear s).buckets, b.waiting = -1) ∧
      ∀ (k : K), find hash_ (clear s) k = some none := by
  refine ⟨rfl, rfl, rfl, rfl, rfl, rfl, ?_, ?_⟩
  · intro b hb
    simp only [clear, List.mem_replicate] at hb
    rw [hb.2]
  · intro k
    obtain ⟨r, hr, hiff, _⟩ := find_spec (clear_spec hash_ s).inv k
    cases r with
    | none => exact hr
    | some a =>
      have := hiff.mp (by simp)
      simp [clear, HashMap.toList] at this

/-- C11: in every reachable state, for an occupied slot `p` whose entry has the home slot
`h = hash(key) mod capacity` and the stored distance `d`, each slot `(h + k) mod capacity`
with `k < d` is occupied with a stored distance of at least `k`; so the walk of
`receive_pos_` for that key does not stop early: it returns `p`. -/
theorem C11_probe_prefix_occupied [DecidableEq K] [Inhabited V] (hash_ : K → Nat)
    (s : HashMap K V) (h : Reachable hash_ s) (p : Nat) (b : node) (e : K × V)
    (hb : s.buckets[p]? = some b) (hw : b.waiting ≠ -1)
    (he : deref s.elements b.iter = some e) :
    (∀ (k : Nat), (k : Int) < b.waiting →
      ∃ bq, s.buckets[(hash_ e.1 % s.capasity_ + k) % s.capasity_]? = some bq ∧
        bq.waiting ≠ -1 ∧ (k : Int) ≤ bq.waiting) ∧
    receive_pos_ hash_ s e.1 = some (some p) := by
  have hW := h.wf
  have hI := hW.inv
  have hc := hI.cap_pos
  rcases hI.slots.dist p b hb hw with ⟨e', he', hb0, hbc, hpos⟩
  rw [he] at he'
  cases he'
  have hhome := Nat.mod_lt (hash_ e.1) hc
  have hp : p < s.capasity_ := by
    have := get_lt hb
    rw [hI.slots.len] at this
    exact this
  constructor
  · intro k hk
    have hkc : k < s.capasity_ := by omega
    have hq := Nat.mod_lt (hash_ e.1 % s.capasity_ + k) hc
    obtain ⟨bq, hbq, hle⟩ := rh_back hI.slots hI.rh hb hbc (b.waiting - k).toNat (by omega)
      ((hash_ e.1 % s.capasity_ + k) % s.capasity_) hq
      (by rcases add_mod_cases hhome hkc with ⟨h1, _⟩ | h1 <;> omega)
    exact ⟨bq, hbq, by omega, by omega⟩
  · obtain ⟨r, hr, hiff, hs⟩ := receive_pos__spec hI e.1
    cases r with
    | none =>
      exact absurd rfl (hiff.mpr (List.mem_map_of_mem _ (deref_mem_toList he)))
    | some q =>
      obtain ⟨b', v', hb', hw', hd'⟩ := hs q rfl
      have he2 : deref s.elements b.iter = some (e.1, e.2) := he
      have : p = q := slot_unique hI hb hb' hw hw' he2 hd'
      rw [hr, this]

/-- Witness of C11 on the cluster that wraps around, for the slot 1 that holds the key 59
at distance 2 from its home slot 19. -/
theorem C11_probe_prefix_occupied_witness :
    Reachable id_hash wrap_state ∧ wrap_state.buckets[1]? = some ⟨3, 2⟩ ∧
    (⟨3, 2⟩ : node).waiting ≠ -1 ∧
    deref wrap_state.elements (⟨3, 2⟩ : node).iter = some (59, 2) ∧
    ((∀ (k : Nat), (k : Int) < (⟨3, 2⟩ : node).waiting →
      ∃ bq, wrap_state.buckets[(id_hash (59, 2).1 % wrap_state.capasity_ + k)
          % wrap_state.capasity_]? = some bq ∧
        bq.waiting ≠ -1 ∧ (k : Int) ≤ bq.waiting) ∧
    receive_pos_ id_hash wrap_state (59, 2).1 = some (some 1)) :=
  ⟨wrap_state_reachable, by decide, by decide, by decide,
    C11_probe_prefix_occupied id_hash wrap_state wrap_state_reachable 1 ⟨3, 2⟩ (59, 2)
      (by decide) (by decide) (by decide)⟩

/-- C12: on a reachable map, for a present key located at slot `p`, let `r` be the
length of the run of slots right after `p` (positions modulo the capacity) whose stored
distance is positive, the slot after the run being empty or at distance 0. After
`erase`: for `1 <= i <= r` the slot `p + i - 1` holds the address that was at `p + i` with
its distance decreased by one, the slot `p + r` is empty, no other slot has changed, the
capacity is the same, the pair of the key is gone from the entry list and the other
pairs are there in the same order, and `find` designates every remaining pair. -/
theorem C12_backward_shift [DecidableEq K] [Inhabited V] (hash_ : K → Nat)
    (s : HashMap K V) (h : Reachable hash_ s) (k : K)
    (hk : k ∈ s.toList.map Prod.fst) :
    ∃ (p r : Nat) (b : node) (v : V) (s' : HashMap K V),
      receive_pos_ hash_ s k = some (some p) ∧ s.buckets[p]? = some b ∧
      b.waiting ≠ -1 ∧ deref s.elements b.iter = some (k, v) ∧
      erase hash_ s k = some s' ∧
      r + 2 ≤ s.capasity_ ∧
      (∀ (i : Nat), 1 ≤ i → i ≤ r →
        ∃ bi, s.buckets[(p + i) % s.capasity_]? = some bi ∧ 0 < bi.waiting ∧
          s'.buckets[(p + (i - 1)) % s.capasity_]? = some ⟨bi.iter, bi.waiting - 1⟩) ∧
      (∃ bn, s.buckets[(p + (r + 1)) % s.capasity_]? = some bn ∧ bn.waiting ≤ 0) ∧
      (∃ be, s'.buckets[(p + r) % s.capasity_]? = some be ∧ be.waiting = -1) ∧
      (∀ (q : Nat), (∀ (i : Nat), i ≤ r → q ≠ (p + i) % s.capasity_) →
        s'.buckets[q]? = s.buckets[q]?) ∧
      s'.capasity_ = s.capasity_ ∧
      s'.toList = s.toList.filter (fun kv => decide (kv.1 ≠ k)) ∧
      (∀ kv ∈ s'.toList, ∃ a, find hash_ s' kv.1 = some (some a) ∧
        deref s'.elements a = some kv) := by
  have hW := h.wf
  obtain ⟨p, r, b, v, B', hr, hb, hw, hd, herase, hr2, hA, hstop, hB, hC⟩ :=
    erase_present_exact hW hk
  obtain ⟨s', h', hW', _, ht', hc'⟩ := erase_spec hW k
  rw [herase] at h'
  cases h'
  exact ⟨p, r, b, v, _, hr, hb, hw, hd, herase, hr2, hA, hstop, ⟨_, hB, rfl⟩, hC, rfl, ht',
    fun kv hkv => find_of_mem hW'.inv hkv⟩

/-- Witness of C12 on the cluster that wraps around, for the key 19 at the last slot:
the two entries behind it are shifted back across the end of the probe index. -/
theorem C12_backward_shift_witness :
    Reachable id_hash wrap_state ∧ 19 ∈ wrap_state.toList.map Prod.fst ∧
    ∃ (p r : Nat) (b : node) (v : Nat) (s' : HashMap Nat Nat),
      receive_pos_ id_hash wrap_state 19 = some (some p) ∧
      wrap_state.buckets[p]? = some b ∧
      b.waiting ≠ -1 ∧ deref wrap_state.elements b.iter = some (19, v) ∧
      erase id_hash wrap_state 19 = some s' ∧
      r + 2 ≤ wrap_state.capasity_ ∧
      (∀ (i : Nat), 1 ≤ i → i ≤ r →
        ∃ bi, wrap_state.buckets[(p + i) % wrap_state.capasity_]? = some bi ∧
          0 < bi.waiting ∧
          s'.buckets[(p + (i - 1)) % wrap_state.capasity_]?
            = some ⟨bi.iter, bi.waiting - 1⟩) ∧
      (∃ bn, wrap_state.buckets[(p + (r + 1)) % wrap_state.capasity_]? = some bn ∧
        bn.waiting ≤ 0) ∧
      (∃ be, s'.buckets[(p + r) % wrap_state.capasity_]? = some be ∧ be.waiting = -1) ∧
      (∀ (q : Nat), (∀ (i : Nat), i ≤ r → q ≠ (p + i) % wrap_state.capasity_) →
        s'.buckets[q]? = wrap_state.buckets[q]?) ∧
      s'.capasity_ = wrap_state.capasity_ ∧
      s'.toList = wrap_state.toList.filter (fun kv => decide (kv.1 ≠ 19)) ∧
      (∀ kv ∈ s'.toList, ∃ a, find id_hash s' kv.1 = some (some a) ∧
        deref s'.elements a = some kv) :=
  ⟨wrap_state_reachable, by decide,
    C12_backward_shift id_hash wrap_state wrap_state_reachable 19 (by decide)⟩

/-- C13: in every reachable state every node of the entry list is referenced by exactly
one occupied slot, every occupied slot references a live node of the entry list, and the
number of occupied slots is `size()`. -/
theorem C13_slot_entry_bijection [DecidableEq K] [Inhabited V] (hash_ : K → Nat)
    (s : HashMap K V) (h : Reachable hash_ s) :
    (∀ x ∈ s.elements,
      ∃! (p : Nat), ∃ (b : node),
        s.buckets[p]? = some b ∧ b.waiting ≠ -1 ∧ b.iter = x.1) ∧
    (∀ (p : Nat) (b : node), s.buckets[p]? = some b → b.waiting ≠ -1 →
      ∃ e, (b.iter, e) ∈ s.elements ∧ deref s.elements b.iter = some e) ∧
    (s.buckets.filter (fun b => decide (b.waiting ≠ -1))).length = s.size := by
  have hI := h.wf.inv
  refine ⟨?_, ?_, ?_⟩
  · intro x hx
    have ha : x.1 ∈ occ s.buckets := hI.perm.symm.subset (List.mem_map_of_mem _ hx)
    obtain ⟨p, b, hb, hw, hba⟩ := occ_mem_inv ha
    refine ⟨p, ⟨b, hb, hw, hba⟩, ?_⟩
    rintro q ⟨b', hb', hw', hba'⟩
    exact occ_inj s.buckets hI.occ_nodup q p b' b hb' hb hw' hw (by rw [hba, hba'])
  · intro p b hb hw
    rcases hI.slots.dist p b hb hw with ⟨e, he, _⟩
    exact ⟨e, deref_some_mem he, he⟩
  · rw [← occ_length_eq, hI.occ_length]
    rfl

/-- Witness of C13 on the cluster that wraps around. -/
theorem C13_slot_entry_bijection_witness :
    Reachable id_hash wrap_state ∧
    ((∀ x ∈ wrap_state.elements,
      ∃! (p : Nat), ∃ (b : node),
        wrap_state.buckets[p]? = some b ∧ b.waiting ≠ -1 ∧ b.iter = x.1) ∧
    (∀ (p : Nat) (b : node), wrap_state.buckets[p]? = some b → b.waiting ≠ -1 →
      ∃ e, (b.iter, e) ∈ wrap_state.elements ∧
        deref wrap_state.elements b.iter = some e) ∧
    (wrap_state.buckets.filter (fun b => decide (b.waiting ≠ -1))).length
      = wrap_state.size) :=
  ⟨wrap_state_reachable, C13_slot_entry_bijection id_hash wrap_state wrap_state_reachable⟩

/-- C14: in every reachable state the stored distance of an occupied slot `p` whose
entry has key `k` is `(p - hash(k) mod capacity + capacity) mod capacity`, with the
current capacity. -/
theorem C14_waiting_is_cyclic_distance [DecidableEq K] [Inhabited V] (hash_ : K → Nat)
    (s : HashMap K V) (h : Reachable hash_ s) (p : Nat) (b : node) (e : K × V)
    (hb : s.buckets[p]? = some b) (hw : b.waiting ≠ -1)
    (he : deref s.elements b.iter = some e) :
    b.waiting =
      ((p : Int) - ((hash_ e.1 % s.capasity_ : Nat) : Int) + (s.capasity_ : Int))
        % (s.capasity_ : Int) := by
  have hI := h.wf.inv
  rcases hI.slots.dist p b hb hw with ⟨e', he', hb0, hbc, hpos⟩
  rw [he] at he'
  cases he'
  rcases hpos with h1 | h1
  · have : (p : Int) - ((hash_ e.1 % s.capasity_ : Nat) : Int) + (s.capasity_ : Int)
        = b.waiting + s.capasity_ := by omega
    rw [this, Int.add_emod_self, Int.emod_eq_of_lt hb0 hbc]
  · have : (p : Int) - ((hash_ e.1 % s.capasity_ : Nat) : Int) + (s.capasity_ : Int)
        = b.waiting := by omega
    rw [this, Int.emod_eq_of_lt hb0 hbc]

/-- Witness of C14 on the cluster that wraps around, for the slot 0 that holds the key 39
with the home slot 19. -/
theorem C14_waiting_is_cyclic_distance_witness :
    Reachable id_hash wrap_state ∧ wrap_state.buckets[0]? = some ⟨2, 1⟩ ∧
    (⟨2, 1⟩ : node).waiting ≠ -1 ∧
    deref wrap_state.elements (⟨2, 1⟩ : node).iter = some (39, 1) ∧
    (⟨2, 1⟩ : node).waiting =
      (((0 : Nat) : Int) - ((id_hash (39, 1).1 % wrap_state.capasity_ : Nat) : Int)
        + (wrap_state.capasity_ : Int)) % (wrap_state.capasity_ : Int) :=
  ⟨wrap_state_reachable, by decide, by decide, by decide,
    C14_waiting_is_cyclic_distance id_hash wrap_state wrap_state_reachable 0 ⟨2, 1⟩ (39, 1)
      (by decide) (by decide) (by decide)⟩

/-- C15: in every reachable state `size() < capacity`, so the probe index has an empty
slot; `receive_pos_` returns for every key, `insert` and `operator[]` return for every
argument, and for an absent key `insert_` returns and the `check_and_rehash` after it,
with the walks of `insert_` that a rehash makes, returns a state with
`size() < capacity` again. -/
theorem C15_headroom_and_termination [DecidableEq K] [Inhabited V] (hash_ : K → Nat)
    (s : HashMap K V) (h : Reachable hash_ s) :
    s.size < s.capasity_ ∧
    (∃ (p : Nat) (b : node), s.buckets[p]? = some b ∧ b.waiting = -1) ∧
    (∀ (k : K), ∃ r, receive_pos_ hash_ s k = some r) ∧
    (∀ (x : K × V), ∃ s', insert hash_ s x = some s') ∧
    (∀ (k : K), ∃ s' r, index hash_ s k = some (s', r)) ∧
    (∀ (x : K × V), x.1 ∉ s.toList.map Prod.fst →
      ∃ s1 s2, insert_ hash_ s x = some s1 ∧ check_and_rehash hash_ s1 = some s2 ∧
        s2.size < s2.capasity_) := by
  have hW := h.wf
  refine ⟨hW.size_lt, ?_, ?_, ?_, ?_, ?_⟩
  · apply exists_empty
    rw [hW.inv.occ_length, hW.inv.slots.len]
    exact hW.size_lt
  · intro k
    obtain ⟨r, hr, _⟩ := receive_pos__spec hW.inv k
    exact ⟨r, hr⟩
  · intro x
    obtain ⟨s', h', _⟩ := insert_spec hW x
    exact ⟨s', h'⟩
  · intro k
    obtain ⟨s', r, h', _⟩ := index_spec hW k
    exact ⟨s', r, h'⟩
  · intro x hx
    obtain ⟨s1, h1, hI1, hc1, he1⟩ := insert__spec hW.inv hW.size_lt x hx
    have hl1 : s1.elements.length = s.elements.length + 1 := by
      rw [he1, List.length_append]
      rfl
    by_cases hfull : s.elements.length + 1 = s.capasity_
    · obtain ⟨s2, h2, _, hc2, ht2⟩ := check_and_rehash_full hash_ s1 hI1.cap_pos
        (by omega) hI1.keys
      refine ⟨s1, s2, h1, h2, ?_⟩
      have : s2.elements.length = s1.elements.length := by
        rw [← toList_length, ht2, toList_length]
      simp only [HashMap.size]
      omega
    · have hlt := hW.size_lt
      refine ⟨s1, s1, h1, check_and_rehash_small hash_ s1 hI1.cap_pos (by omega), ?_⟩
      simp only [HashMap.size]
      omega

/-- Witness of C15 on the map of 19 entries, where one slot is left. -/
theorem C15_headroom_and_termination_witness :
    Reachable id_hash nineteen_state ∧
    (nineteen_state.size < nineteen_state.capasity_ ∧
    (∃ (p : Nat) (b : node), nineteen_state.buckets[p]? = some b ∧ b.waiting = -1) ∧
    (∀ (k : Nat), ∃ r, receive_pos_ id_hash nineteen_state k = some r) ∧
    (∀ (x : Nat × Nat), ∃ s', insert id_hash nineteen_state x = some s') ∧
    (∀ (k : Nat), ∃ s' r, index id_hash nineteen_state k = some (s', r)) ∧
    (∀ (x : Nat × Nat), x.1 ∉ nineteen_state.toList.map Prod.fst →
      ∃ s1 s2, insert_ id_hash nineteen_state x = some s1 ∧
        check_and_rehash id_hash s1 = some s2 ∧ s2.size < s2.capasity_)) :=
  ⟨nineteen_state_reachable,
    C15_headroom_and_termination id_hash nineteen_state nineteen_state_reachable⟩

/-- C16: a call of `check_and_rehash` that takes the rehash branch on a table with the
container invariant returns a state whose capacity is at least `5 * size + 20` and
larger than the one before; on a reachable state no public operation other than `clear`
lowers the capacity; `clear` sets it to 20, which no reachable capacity is below. -/
theorem C16_capacity_grows_only [DecidableEq K] [Inhabited V] (hash_ : K → Nat)
    (s : HashMap K V) (h : Reachable hash_ s) (t : HashMap K V) (hI : MapInv hash_ t)
    (hbranch : ¬ 2 * (t.elements.length / t.capasity_) < 1) :
    (∃ t', check_and_rehash hash_ t = some t' ∧ 5 * t'.size + 20 ≤ t'.capasity_ ∧
      t.capasity_ < t'.capasity_) ∧
    (∀ (op : Op K V) (s' : HashMap K V), op ≠ Op.clear → step hash_ s op = some s' →
      s.capasity_ ≤ s'.capasity_) ∧
    (clear s).capasity_ = 20 ∧ (clear s).capasity_ ≤ s.capasity_ := by
  have hW := h.wf
  refine ⟨?_, fun op s' hop hs => step_capacity hW hop hs, rfl, hW.cap_ge⟩
  have hfull : t.capasity_ ≤ t.elements.length := by
    by_contra hlt
    rw [Nat.div_eq_of_lt (by omega)] at hbranch
    omega
  obtain ⟨t', ht, _, hc, htl⟩ := check_and_rehash_full hash_ t hI.cap_pos hfull hI.keys
  have hl : t'.elements.length = t.elements.length := by
    rw [← toList_length, htl, toList_length]
  refine ⟨t', ht, ?_, ?_⟩
  · simp only [HashMap.size]
    omega
  · omega

/-- Witness of C16 for the rehash of the full table of 20 entries. -/
theorem C16_capacity_grows_only_witness :
    Reachable id_hash demo_state ∧ MapInv id_hash full_table ∧
    ¬ 2 * (full_table.elements.length / full_table.capasity_) < 1 ∧
    ((∃ t', check_and_rehash id_hash full_table = some t' ∧
        5 * t'.size + 20 ≤ t'.capasity_ ∧ full_table.capasity_ < t'.capasity_) ∧
      (∀ (op : Op Nat Nat) (s' : HashMap Nat Nat), op ≠ Op.clear →
        step id_hash demo_state op = some s' → demo_state.capasity_ ≤ s'.capasity_) ∧
      (clear demo_state).capasity_ = 20 ∧
      (clear demo_state).capasity_ ≤ demo_state.capasity_) :=
  ⟨demo_state_reachable, full_table_inv, by decide,
    C16_capacity_grows_only id_hash demo_state demo_state_reachable full_table
      full_table_inv (by decide)⟩

/-- C17, refuted: there are no reachable map and present key for which `insert` with
that key or `operator[]` on that key returns a state other than the one it was given. -/
theorem C17_no_lookup_rehashes :
    ¬ ∃ (K V : Type) (_ : DecidableEq K) (_ : Inhabited V) (hash_ : K → Nat)
      (s : HashMap K V) (k : K) (v : V),
      Reachable hash_ s ∧ k ∈ s.toList.map Prod.fst ∧
        ((∃ s', insert hash_ s (k, v) = some s' ∧ s' ≠ s) ∨
         (∃ s' r, index hash_ s k = some (s', r) ∧ s' ≠ s)) := by
  rintro ⟨K, V, dK, iV, hash_, s, k, v, hR, hk, hch⟩
  obtain ⟨hins, ⟨r, hidx⟩, _⟩ := lookup_same_state hR.wf hk v
  rcases hch with ⟨s', h', hne⟩ | ⟨s', r', h', hne⟩
  · rw [hins] at h'
    cases h'
    exact hne rfl
  · rw [hidx] at h'
    cases h'
    exact hne rfl

/-- C17, amended: on a reachable map a lookup never rehashes. For a present key `insert`
returns the state it was given without calling `check_and_rehash`, and `operator[]`
returns the state it was given: the `check_and_rehash` it calls returns at once, since
`size() < capacity`. -/
theorem C17_lookup_leaves_state [DecidableEq K] [Inhabited V] (hash_ : K → Nat)
    (s : HashMap K V) (h : Reachable hash_ s) (k : K) (v : V)
    (hk : k ∈ s.toList.map Prod.fst) :
    insert hash_ s (k, v) = some s ∧ (∃ r, index hash_ s k = some (s, r)) ∧
      check_and_rehash hash_ s = some s ∧ s.size < s.capasity_ := by
  obtain ⟨h1, h2, h3⟩ := lookup_same_state h.wf hk v
  exact ⟨h1, h2, h3, h.wf.size_lt⟩

/-- Witness of C17 on the map of 19 entries, the fullest a reachable map of capacity 20
gets, for the present key 7. -/
theorem C17_lookup_leaves_state_witness :
    Reachable id_hash nineteen_state ∧ 7 ∈ nineteen_state.toList.map Prod.fst ∧
    (insert id_hash nineteen_state (7, 0) = some nineteen_state ∧
      (∃ r, index id_hash nineteen_state 7 = some (nineteen_state, r)) ∧
      check_and_rehash id_hash nineteen_state = some nineteen_state ∧
      nineteen_state.size < nineteen_state.capasity_) :=
  ⟨nineteen_state_reachable, by decide,
    C17_lookup_leaves_state id_hash nineteen_state nineteen_state_reachable 7 0
      (by decide)⟩

/-- C18, refuted: in the reachable state after the inserts of the keys 0, 20 and 2
under the identity hash, the walk from the home slot 0 of the key 0 meets the occupied
slots 0, 1, 2 with the stored distances 0, 1, 0 before the empty slot 3: the distances
are not non-decreasing. -/
theorem C18_distances_not_monotone :
    Reachable id_hash cluster_state ∧
    ¬ (∀ e ∈ cluster_state.toList, ∀ (j : Nat) (b b' : node),
        (∀ i ≤ j + 1, ∃ bi,
          cluster_state.buckets[(id_hash e.1 % cluster_state.capasity_ + i)
            % cluster_state.capasity_]? = some bi ∧ bi.waiting ≠ -1) →
        cluster_state.buckets[(id_hash e.1 % cluster_state.capasity_ + j)
          % cluster_state.capasity_]? = some b →
        cluster_state.buckets[(id_hash e.1 % cluster_state.capasity_ + (j + 1))
          % cluster_state.capasity_]? = some b' →
        b.waiting ≤ b'.waiting) := by
  refine ⟨cluster_state_reachable, ?_⟩
  intro hmono
  have := hmono (0, 0) (by decide) 1 ⟨2, 1⟩ ⟨3, 0⟩
    (by
      intro i hi
      have hi' : i = 0 ∨ i = 1 ∨ i = 2 := by omega
      rcases hi' with rfl | rfl | rfl
      · exact ⟨⟨1, 0⟩, by decide, by decide⟩
      · exact ⟨⟨2, 1⟩, by decide, by decide⟩
      · exact ⟨⟨3, 0⟩, by decide, by decide⟩)
    (by decide) (by decide)
  simp at this

/-- C18, amended: in every reachable state the stored distance of a slot is at most one
more than the stored distance of the slot before it, an empty slot counting as `-1`; so
along the walk from the home slot `h` of a stored entry the step number minus the stored
distance of the slot met at that step is non-decreasing. -/
theorem C18_distance_grows_by_at_most_one [DecidableEq K] [Inhabited V] (hash_ : K → Nat)
    (s : HashMap K V) (h : Reachable hash_ s) :
    (∀ (p : Nat) (b b' : node), s.buckets[p]? = some b →
      s.buckets[(p + 1) % s.capasity_]? = some b' → b'.waiting ≤ b.waiting + 1) ∧
    (∀ e ∈ s.toList, ∀ (j : Nat) (b b' : node),
      s.buckets[(hash_ e.1 % s.capasity_ + j) % s.capasity_]? = some b →
      s.buckets[(hash_ e.1 % s.capasity_ + (j + 1)) % s.capasity_]? = some b' →
      (j : Int) - b.waiting ≤ ((j + 1 : Nat) : Int) - b'.waiting) := by
  have hI := h.wf.inv
  have hloc : ∀ (p : Nat) (b b' : node), s.buckets[p]? = some b →
      s.buckets[(p + 1) % s.capasity_]? = some b' → b'.waiting ≤ b.waiting + 1 := by
    intro p b b' hb hb'
    have hp : p < s.capasity_ := by
      have := get_lt hb
      rw [hI.slots.len] at this
      exact this
    rw [← next_id_eq_mod hp] at hb'
    exact hI.rh p b b' hb hb'
  refine ⟨hloc, ?_⟩
  intro e _ j b b' hb hb'
  have heq : (hash_ e.1 % s.capasity_ + (j + 1)) % s.capasity_
      = ((hash_ e.1 % s.capasity_ + j) % s.capasity_ + 1) % s.capasity_ := by
    rw [Nat.mod_add_mod (hash_ e.1 % s.capasity_ + j) s.capasity_ 1, Nat.add_assoc]
  rw [heq] at hb'
  have := hloc _ b b' hb hb'
  push_cast
  omega

/-- Witness of C18 on the state of the three clustered keys. -/
theorem C18_distance_grows_by_at_most_one_witness :
    Reachable id_hash cluster_state ∧
    ((∀ (p : Nat) (b b' : node), cluster_state.buckets[p]? = some b →
      cluster_state.buckets[(p + 1) % cluster_state.capasity_]? = some b' →
      b'.waiting ≤ b.waiting + 1) ∧
    (∀ e ∈ cluster_state.toList, ∀ (j : Nat) (b b' : node),
      cluster_state.buckets[(id_hash e.1 % cluster_state.capasity_ + j)
        % cluster_state.capasity_]? = some b →
      cluster_state.buckets[(id_hash e.1 % cluster_state.capasity_ + (j + 1))
        % cluster_state.capasity_]? = some b' →
      (j : Int) - b.waiting ≤ ((j + 1 : Nat) : Int) - b'.waiting)) :=
  ⟨cluster_state_reachable,
    C18_distance_grows_by_at_most_one id_hash cluster_state cluster_state_reachable⟩

/-- C19: on a table with the container invariant `check_and_rehash` returns, it changes
the state exactly when `size() >= capacity`, which is when the integer quotient
`size / capacity` is not 0, and then the capacity becomes `5 * size + 20`; on a reachable state
`insert` and `operator[]` change the capacity exactly when the key is absent and the
insertion makes the size equal to the capacity; from a fresh map the capacity is 20 after
the insert of up to 19 pairs with distinct keys and 120 after the 20th. -/
theorem C19_rehash_iff_full [DecidableEq K] [Inhabited V] (hash_ : K → Nat)
    (s : HashMap K V) (h : Reachable hash_ s) (t : HashMap K V) (hI : MapInv hash_ t)
    (x : K × V) (xs : List (K × V))
    (hxs : (xs.map Prod.fst).Nodup) (hlen : xs.length = 20) :
    (∃ t', check_and_rehash hash_ t = some t' ∧
      (t' ≠ t ↔ t.capasity_ ≤ t.size) ∧
      (t.capasity_ ≤ t.size ↔ ¬ t.size / t.capasity_ = 0) ∧
      (t.capasity_ ≤ t.size → t'.capasity_ = 5 * t.size + 20)) ∧
    (∃ s', insert hash_ s x = some s' ∧
      (s'.capasity_ ≠ s.capasity_ ↔
        x.1 ∉ s.toList.map Prod.fst ∧ s.size + 1 = s.capasity_) ∧
      (s'.capasity_ ≠ s.capasity_ → s'.capasity_ = 5 * s'.size + 20)) ∧
    (∃ s' r, index hash_ s x.1 = some (s', r) ∧
      (s'.capasity_ ≠ s.capasity_ ↔
        x.1 ∉ s.toList.map Prod.fst ∧ s.size + 1 = s.capasity_) ∧
      (s'.capasity_ ≠ s.capasity_ → s'.capasity_ = 5 * s'.size + 20)) ∧
    (∀ n ≤ 19, ∃ sn, run hash_ ((xs.take n).map Op.insert) HashMap.init = some sn ∧
      sn.size = n ∧ sn.capasity_ = 20) ∧
    (∃ s20, run hash_ (xs.map Op.insert) HashMap.init = some s20 ∧
      s20.size = 20 ∧ s20.capasity_ = 5 * 20 + 20) := by
  have hW := h.wf
  have hinit : WF hash_ (HashMap.init : HashMap K V) := init_spec hash_
  have hsmall : ∀ n ≤ 19, ∃ sn, run hash_ ((xs.take n).map Op.insert) HashMap.init
      = some sn ∧ WF hash_ sn ∧ sn.capasity_ = 20 ∧ sn.toList = xs.take n := by
    intro n hn
    obtain ⟨sn, hrun, hWn, hc, htl⟩ := run_inserts_small hash_ (xs.take n) HashMap.init hinit
      (by
        simp only [HashMap.toList, HashMap.init, List.map_nil, List.nil_append]
        exact hxs.sublist ((List.take_sublist n xs).map _))
      (by
        simp only [HashMap.init, List.length_nil, List.length_take]
        omega)
    exact ⟨sn, hrun, hWn, hc, by simpa [HashMap.toList, HashMap.init] using htl⟩
  refine ⟨?_, ?_, ?_, ?_, ?_⟩
  · have hq : t.capasity_ ≤ t.size ↔ ¬ t.size / t.capasity_ = 0 := by
      simp only [HashMap.size]
      rw [Nat.div_eq_zero_iff hI.cap_pos]
      omega
    by_cases hlt : t.elements.length < t.capasity_
    · refine ⟨t, check_and_rehash_small hash_ t hI.cap_pos hlt, ?_, hq, ?_⟩
      · simp only [HashMap.size]
        exact ⟨fun hne => absurd rfl hne, fun hle => by omega⟩
      · simp only [HashMap.size]
        intro hle
        omega
    · obtain ⟨t', ht, _, hc, _⟩ := check_and_rehash_full hash_ t hI.cap_pos (by omega)
        hI.keys
      refine ⟨t', ht, ?_, hq, fun _ => hc⟩
      simp only [HashMap.size]
      refine ⟨fun _ => by omega, fun _ heq => ?_⟩
      rw [heq] at hc
      omega
  · obtain ⟨s', h', hW', hpres, habs⟩ := insert_spec hW x
    refine ⟨s', h', ?_, ?_⟩
    · by_cases hk : x.1 ∈ s.toList.map Prod.fst
      · rw [hpres hk]
        exact ⟨fun hne => absurd rfl hne, fun hh => absurd hk hh.1⟩
      · rw [(habs hk).2]
        simp only [HashMap.size]
        by_cases hfull : s.elements.length + 1 = s.capasity_
        · rw [if_pos hfull]
          exact ⟨fun _ => ⟨hk, hfull⟩, fun _ => by omega⟩
        · rw [if_neg hfull]
          exact ⟨fun hne => absurd rfl hne, fun hh => absurd hh.2 hfull⟩
    · by_cases hk : x.1 ∈ s.toList.map Prod.fst
      · rw [hpres hk]
        intro hne
        exact absurd rfl hne
      · have hsz : s'.size = s.size + 1 := by
          simp only [HashMap.size]
          rw [← toList_length, (habs hk).1, List.length_append, toList_length]
          rfl
        rw [(habs hk).2, hsz]
        simp only [HashMap.size]
        split
        · intro _; rfl
        · intro hne; exact absurd rfl hne
  · obtain ⟨s', r, h', hW', hpres, habs⟩ := index_spec hW x.1
    refine ⟨s', r, h', ?_, ?_⟩
    · by_cases hk : x.1 ∈ s.toList.map Prod.fst
      · rw [(hpres hk).1]
        exact ⟨fun hne => absurd rfl hne, fun hh => absurd hk hh.1⟩
      · rw [(habs hk).2.2]
        simp only [HashMap.size]
        by_cases hfull : s.elements.length + 1 = s.capasity_
        · rw [if_pos hfull]
          exact ⟨fun _ => ⟨hk, hfull⟩, fun _ => by omega⟩
        · rw [if_neg hfull]
          exact ⟨fun hne => absurd rfl hne, fun hh => absurd hh.2 hfull⟩
    · by_cases hk : x.1 ∈ s.toList.map Prod.fst
      · rw [(hpres hk).1]
        intro hne
        exact absurd rfl hne
      · have hsz : s'.size = s.size + 1 := by
          simp only [HashMap.size]
          rw [← toList_length, (habs hk).1, List.length_append, toList_length]
          rfl
        rw [(habs hk).2.2, hsz]
        simp only [HashMap.size]
        split
        · intro _; rfl
        · intro hne; exact absurd rfl hne
  · intro n hn
    obtain ⟨sn, hrun, _, hc, htl⟩ := hsmall n hn
    refine ⟨sn, hrun, ?_, hc⟩
    simp only [HashMap.size]
    rw [← toList_length, htl, List.length_take]
    omega
  · obtain ⟨s19, hrun, hW19, hc, htl⟩ := hsmall 19 (le_refl _)
    have hl19 : s19.elements.length = 19 := by
      rw [← toList_length, htl, List.length_take]
      omega
    -- the twentieth pair
    have hdrop : ∃ y, xs.drop 19 = [y] := by
      have hl : (xs.drop 19).length = 1 := by
        rw [List.length_drop]
        omega
      match hd : xs.drop 19, hl with
      | [y], _ => exact ⟨y, rfl⟩
    obtain ⟨y, hy⟩ := hdrop
    have hsplit : xs = xs.take 19 ++ [y] := by
      rw [← hy, List.take_append_drop]
    have hyk : y.1 ∉ s19.toList.map Prod.fst := by
      rw [htl]
      intro hmem
      rw [hsplit, List.map_append, List.nodup_append] at hxs
      exact hxs.2.2 hmem (by simp)
    obtain ⟨s20, h20, _, _, habs⟩ := insert_spec hW19 y
    obtain ⟨ht20, hc20⟩ := habs hyk
    refine ⟨s20, ?_, ?_, ?_⟩
    · rw [hsplit, List.map_append, run_append hash_ _ _ _ _ hrun]
      simp only [List.map_cons, List.map_nil, run, step, h20]
    · simp only [HashMap.size]
      rw [← toList_length, ht20, List.length_append, toList_length, hl19]
      rfl
    · rw [hc20, hl19, hc]
      rfl

/-- Witness of C19 for the rehash of the full table, an insert into the map of 19
entries and the keys 0, ..., 19. -/
theorem C19_rehash_iff_full_witness :
    Reachable id_hash nineteen_state ∧ MapInv id_hash full_table ∧
    (((List.range 20).map (fun i => (i, i))).map Prod.fst).Nodup ∧
    ((List.range 20).map (fun i => (i, i))).length = 20 ∧
    ((∃ t', check_and_rehash id_hash full_table = some t' ∧
      (t' ≠ full_table ↔ full_table.capasity_ ≤ full_table.size) ∧
      (full_table.capasity_ ≤ full_table.size ↔
        ¬ full_table.size / full_table.capasity_ = 0) ∧
      (full_table.capasity_ ≤ full_table.size →
        t'.capasity_ = 5 * full_table.size + 20)) ∧
    (∃ s', insert id_hash nineteen_state (19, 19) = some s' ∧
      (s'.capasity_ ≠ nineteen_state.capasity_ ↔
        (19, 19).1 ∉ nineteen_state.toList.map Prod.fst ∧
          nineteen_state.size + 1 = nineteen_state.capasity_) ∧
      (s'.capasity_ ≠ nineteen_state.capasity_ → s'.capasity_ = 5 * s'.size + 20)) ∧
    (∃ s' r, index id_hash nineteen_state (19, 19).1 = some (s', r) ∧
      (s'.capasity_ ≠ nineteen_state.capasity_ ↔
        (19, 19).1 ∉ nineteen_state.toList.map Prod.fst ∧
          nineteen_state.size + 1 = nineteen_state.capasity_) ∧
      (s'.capasity_ ≠ nineteen_state.capasity_ → s'.capasity_ = 5 * s'.size + 20)) ∧
    (∀ n ≤ 19, ∃ sn : HashMap Nat Nat,
      run id_hash ((((List.range 20).map (fun i => (i, i))).take n).map Op.insert)
        HashMap.init = some sn ∧ sn.size = n ∧ sn.capasity_ = 20) ∧
    (∃ s20 : HashMap Nat Nat,
      run id_hash (((List.range 20).map (fun i => (i, i))).map Op.insert)
        HashMap.init = some s20 ∧ s20.size = 20 ∧ s20.capasity_ = 5 * 20 + 20)) :=
  ⟨nineteen_state_reachable, full_table_inv, by decide, by decide,
    C19_rehash_iff_full id_hash nineteen_state nineteen_state_reachable full_table
      full_table_inv (19, 19) ((List.range 20).map (fun i => (i, i)))
      (by decide) (by decide)⟩

/-- C20: in every reachable state the keys of the entries are pairwise distinct: two
nodes of the entry list with equal keys are the same node, and `size()` is the number
of distinct keys in the map. -/
theorem C20_keys_distinct [DecidableEq K] [Inhabited V] (hash_ : K → Nat)
    (s : HashMap K V) (h : Reachable hash_ s) :
    (s.toList.map Prod.fst).Nodup ∧
    (∀ x ∈ s.elements, ∀ y ∈ s.elements, x.2.1 = y.2.1 → x = y) ∧
    s.size = (s.toList.map Prod.fst).toFinset.card := by
  have hI := h.wf.inv
  have hk : (s.elements.map (fun x => x.2.1)).Nodup := by
    have := hI.keys
    simpa [HashMap.toList, List.map_map] using this
  refine ⟨hI.keys, ?_, ?_⟩
  · intro x hx y hy hxy
    exact List.inj_on_of_nodup_map hk hx hy hxy
  · rw [List.toFinset_card_of_nodup hI.keys]
    simp [HashMap.size, HashMap.toList]

/-- Witness of C20 on the state after a collision, an assignment and a backward
shift. -/
theorem C20_keys_distinct_witness :
    Reachable id_hash demo_state ∧
    ((demo_state.toList.map Prod.fst).Nodup ∧
    (∀ x ∈ demo_state.elements, ∀ y ∈ demo_state.elements, x.2.1 = y.2.1 → x = y) ∧
    demo_state.size = (demo_state.toList.map Prod.fst).toFinset.card) :=
  ⟨demo_state_reachable, C20_keys_distinct id_hash demo_state demo_state_reachable⟩

end Claims

end RobinHood
